import Mathlib

/-!
Verification of the bvh_anim BVH (Biovision Hierarchy) motion-capture
library against its specification.

The repository contains a thin C++ wrapper (src/cpp) over a C API and a C
demo driver (src/ctests).  The parser, writer and equality comparison
themselves live in the underlying bvh_anim library, whose sources are not
part of this repository snapshot; those components are modelled here from
the specification (sections 3, 4, 6, 7, 8 of spec.md).  The C++ wrapper
types (point, channel and their operators) are embedded directly from
src/cpp/include/bvh/bvh.hpp and src/cpp/src/bvh.cpp.

Numeric values: BVH text carries decimal floating literals.  The model
represents a parsed numeric value exactly, as a pair (num, exp) denoting
num / 10 ^ exp.  Two representations denote the same float value exactly
when they cross-multiply equally; this mirrors exact (bitwise, not
tolerance based) float comparison of values parsed from decimal text.
-/

/-- Modelled from the spec: an exactly-represented decimal numeric value,
denoting num / 10 ^ exp.  Stands for the f32 / f64 values the real parser
stores; text formatting (for example a trailing zero) may change the
representation but not the denoted value. -/
structure Dec where
  num : Int
  exp : Nat
deriving DecidableEq, Repr

/-- Exact value equality of two decimal numbers, by cross multiplication. -/
def Dec.eqb (a b : Dec) : Bool :=
  a.num * 10 ^ b.exp == b.num * 10 ^ a.exp

/-- Propositional form of exact value equality of two decimal numbers. -/
def Dec.veq (a b : Dec) : Prop :=
  a.num * 10 ^ b.exp = b.num * 10 ^ a.exp

theorem Dec.eqb_iff_veq (a b : Dec) : a.eqb b = true ↔ a.veq b := by
  simp [Dec.eqb, Dec.veq]

theorem Dec.veq_refl (a : Dec) : a.veq a := rfl

/-- Negation, as applied by a leading minus sign. -/
def Dec.neg (a : Dec) : Dec := ⟨-a.num, a.exp⟩

/-- Whitespace characters recognised by the lexer (spec section 4.1):
spaces, tabs, CR and LF in any combination separate tokens. -/
def isWsChar (c : Char) : Bool :=
  c == ' ' || c == '\t' || c == '\n' || c == '\r'

/-- Decimal digit test. -/
def isDigitChar (c : Char) : Bool :=
  '0' ≤ c && c ≤ '9'

/-- Numeric value of a digit character. -/
def digVal (c : Char) : Nat := c.toNat - '0'.toNat

/-- Character for a digit value below ten. -/
def digitChar (d : Nat) : Char :=
  match d with
  | 0 => '0' | 1 => '1' | 2 => '2' | 3 => '3' | 4 => '4'
  | 5 => '5' | 6 => '6' | 7 => '7' | 8 => '8' | 9 => '9'
  | _ => '0'

/-- Accumulating left fold of decimal digits into a number. -/
def readDigitsAux : List Char → Nat → Nat
  | [], acc => acc
  | c :: cs, acc => readDigitsAux cs (10 * acc + digVal c)

/-- Parse a word as an unsigned decimal integer (counts in the grammar). -/
def parseNatWord (w : List Char) : Option Nat :=
  if !w.isEmpty && w.all isDigitChar then some (readDigitsAux w 0) else none

/-- Apply a decimal exponent e to a mantissa m / 10 ^ k. -/
def applyExp (m : Int) (k : Nat) (e : Int) : Dec :=
  if 0 ≤ e then
    if k ≤ e.toNat then ⟨m * 10 ^ (e.toNat - k), 0⟩ else ⟨m, k - e.toNat⟩
  else ⟨m, k + (-e).toNat⟩

/-- Parse the part of a numeric literal after the exponent marker:
an optional sign followed by one or more digits. -/
def parseExpPart (w : List Char) : Option Int :=
  match w with
  | [] => none
  | c :: r =>
    if c == '-' then (parseNatWord r).map (fun n => -(n : Int))
    else if c == '+' then (parseNatWord r).map (fun n => (n : Int))
    else (parseNatWord w).map (fun n => (n : Int))

/-- Parse an unsigned decimal literal: digits, an optional fractional
part, and an optional exponent (spec section 6: numbers are decimal,
optionally with a fractional part and exponent). -/
def parseUnsigned (w : List Char) : Option Dec :=
  let ip := w.takeWhile isDigitChar
  let r1 := w.dropWhile isDigitChar
  if ip.isEmpty then none else
  let ipv : Int := (readDigitsAux ip 0 : Nat)
  match r1 with
  | [] => some ⟨ipv, 0⟩
  | c :: r2 =>
    if c == '.' then
      let fp := r2.takeWhile isDigitChar
      let r3 := r2.dropWhile isDigitChar
      let m : Int := ipv * 10 ^ fp.length + (readDigitsAux fp 0 : Nat)
      match r3 with
      | [] => some ⟨m, fp.length⟩
      | c' :: r4 =>
        if c' == 'e' || c' == 'E' then (parseExpPart r4).map (applyExp m fp.length)
        else none
    else if c == 'e' || c == 'E' then (parseExpPart r2).map (applyExp ipv 0)
    else none

/-- Parse a signed decimal literal (spec section 6: optionally signed). -/
def parseNumWord (w : List Char) : Option Dec :=
  match w with
  | [] => none
  | c :: r =>
    if c == '-' then (parseUnsigned r).map Dec.neg
    else if c == '+' then parseUnsigned r
    else parseUnsigned w

/-- Exactly k decimal digit characters for n (zero padded, big endian). -/
def padDigits : Nat → Nat → List Char
  | 0, _ => []
  | k + 1, n => padDigits k (n / 10) ++ [digitChar (n % 10)]

/-- Fueled count of decimal digits of a number. -/
def lenAux : Nat → Nat → Nat
  | 0, _ => 1
  | f + 1, n => if n < 10 then 1 else 1 + lenAux f (n / 10)

/-- Count of decimal digits of a number. -/
def natLen (n : Nat) : Nat := lenAux n n

/-- Print a number in decimal. -/
def natToWord (n : Nat) : List Char := padDigits (natLen n) n

/-- Writer output for one numeric value (spec section 4.5: written with
enough precision to round trip): the exact decimal expansion. -/
def decToWord (d : Dec) : List Char :=
  let M := d.num.natAbs
  let core :=
    if d.exp = 0 then natToWord M
    else natToWord (M / 10 ^ d.exp) ++ '.' :: padDigits d.exp (M % 10 ^ d.exp)
  if d.num < 0 then '-' :: core else core

theorem digVal_digitChar {d : Nat} (h : d < 10) : digVal (digitChar d) = d := by
  interval_cases d <;> rfl

theorem isDigitChar_digitChar (d : Nat) : isDigitChar (digitChar d) = true := by
  rcases d with _ | _ | _ | _ | _ | _ | _ | _ | _ | _ | d <;> rfl

theorem readDigitsAux_append (xs ys : List Char) (a : Nat) :
    readDigitsAux (xs ++ ys) a = readDigitsAux ys (readDigitsAux xs a) := by
  induction xs generalizing a with
  | nil => rfl
  | cons c cs ih => simp [readDigitsAux, ih]

theorem padDigits_length (k n : Nat) : (padDigits k n).length = k := by
  induction k generalizing n with
  | zero => rfl
  | succ k ih => simp [padDigits, ih]

theorem padDigits_all_digits (k n : Nat) :
    ∀ c ∈ padDigits k n, isDigitChar c = true := by
  induction k generalizing n with
  | zero => intro c hc; simp [padDigits] at hc
  | succ k ih =>
    intro c hc
    simp only [padDigits, List.mem_append, List.mem_singleton] at hc
    rcases hc with hc | hc
    · exact ih (n / 10) c hc
    · rw [hc]; exact isDigitChar_digitChar _

theorem readDigitsAux_padDigits (k : Nat) :
    ∀ n a, n < 10 ^ k → readDigitsAux (padDigits k n) a = a * 10 ^ k + n := by
  induction k with
  | zero => intro n a h; simp at h; simp [padDigits, readDigitsAux, h]
  | succ k ih =>
    intro n a h
    have hdiv : n / 10 < 10 ^ k := by
      rw [Nat.div_lt_iff_lt_mul (by norm_num)]
      calc n < 10 ^ (k + 1) := h
        _ = 10 ^ k * 10 := by rw [pow_succ]
    have hmod : n % 10 < 10 := Nat.mod_lt _ (by norm_num)
    rw [padDigits, readDigitsAux_append, ih (n / 10) a hdiv]
    simp [readDigitsAux, digVal_digitChar hmod, pow_succ]
    have := Nat.div_add_mod n 10
    ring_nf
    omega

theorem lenAux_pos (f n : Nat) : 0 < lenAux f n := by
  cases f with
  | zero => simp [lenAux]
  | succ f => simp only [lenAux]; split <;> omega

theorem lt_pow_lenAux (f : Nat) : ∀ n, n ≤ f → n < 10 ^ lenAux f n := by
  induction f with
  | zero => intro n h; interval_cases n; simp [lenAux]
  | succ f ih =>
    intro n h
    rw [lenAux]
    split
    · simpa using (by assumption : n < 10)
    · have h10 : 10 ≤ n := by omega
      have hdivle : n / 10 ≤ f := by
        have : n / 10 < n := Nat.div_lt_self (by omega) (by norm_num)
        omega
      have hd := ih (n / 10) hdivle
      have : n < 10 ^ lenAux f (n / 10) * 10 := by
        rw [← Nat.div_lt_iff_lt_mul (by norm_num)]
        exact hd
      calc n < 10 ^ lenAux f (n / 10) * 10 := this
        _ = 10 ^ (1 + lenAux f (n / 10)) := by rw [pow_add]; ring

theorem natLen_lt (n : Nat) : n < 10 ^ natLen n := lt_pow_lenAux n n le_rfl

theorem natToWord_ne_nil (n : Nat) : natToWord n ≠ [] := by
  have h1 : (natToWord n).length = natLen n := padDigits_length _ _
  have h2 : 0 < natLen n := lenAux_pos _ _
  intro h
  rw [h] at h1
  simp at h1
  omega

theorem natToWord_all_digits (n : Nat) :
    ∀ c ∈ natToWord n, isDigitChar c = true := padDigits_all_digits _ _

theorem readDigitsAux_natToWord (n : Nat) : readDigitsAux (natToWord n) 0 = n := by
  rw [natToWord, readDigitsAux_padDigits _ _ _ (natLen_lt n)]
  ring

theorem parseNatWord_natToWord (n : Nat) : parseNatWord (natToWord n) = some n := by
  rw [parseNatWord]
  have h1 : (natToWord n).isEmpty = false := by
    cases h : natToWord n with
    | nil => exact absurd h (natToWord_ne_nil n)
    | cons c cs => rfl
  have h2 : (natToWord n).all isDigitChar = true := by
    rw [List.all_eq_true]; exact natToWord_all_digits n
  rw [h1, h2]
  simp [readDigitsAux_natToWord]

theorem takeWhile_all {p : Char → Bool} :
    ∀ xs : List Char, (∀ c ∈ xs, p c = true) → xs.takeWhile p = xs := by
  intro xs h
  induction xs with
  | nil => rfl
  | cons c cs ih =>
    have hc := h c (by simp)
    have hcs := ih (fun x hx => h x (by simp [hx]))
    simp [List.takeWhile_cons, hc, hcs]

theorem dropWhile_all {p : Char → Bool} :
    ∀ xs : List Char, (∀ c ∈ xs, p c = true) → xs.dropWhile p = [] := by
  intro xs h
  induction xs with
  | nil => rfl
  | cons c cs ih =>
    have hc := h c (by simp)
    have hcs := ih (fun x hx => h x (by simp [hx]))
    simp [List.dropWhile_cons, hc, hcs]

theorem takeWhile_append_stop {p : Char → Bool} {xs : List Char} {y : Char}
    (ys : List Char) (hxs : ∀ c ∈ xs, p c = true) (hy : p y = false) :
    (xs ++ y :: ys).takeWhile p = xs := by
  induction xs with
  | nil => simp [List.takeWhile_cons, hy]
  | cons c cs ih =>
    have hc := hxs c (by simp)
    have hcs := ih (fun x hx => hxs x (by simp [hx]))
    simp [List.cons_append, List.takeWhile_cons, hc, hcs]

theorem dropWhile_append_stop {p : Char → Bool} {xs : List Char} {y : Char}
    (ys : List Char) (hxs : ∀ c ∈ xs, p c = true) (hy : p y = false) :
    (xs ++ y :: ys).dropWhile p = y :: ys := by
  induction xs with
  | nil => simp [List.dropWhile_cons, hy]
  | cons c cs ih =>
    have hc := hxs c (by simp)
    have hcs := ih (fun x hx => hxs x (by simp [hx]))
    simp [List.cons_append, List.dropWhile_cons, hc, hcs]

theorem isEmpty_false_of_ne_nil {xs : List Char} (h : xs ≠ []) :
    xs.isEmpty = false := by
  cases xs with
  | nil => exact absurd rfl h
  | cons c cs => rfl

theorem parseUnsigned_int (M : Nat) :
    parseUnsigned (natToWord M) = some ⟨(M : Int), 0⟩ := by
  have hall := natToWord_all_digits M
  have htk : (natToWord M).takeWhile isDigitChar = natToWord M :=
    takeWhile_all _ hall
  have hdr : (natToWord M).dropWhile isDigitChar = [] :=
    dropWhile_all _ hall
  have hie : (natToWord M).isEmpty = false :=
    isEmpty_false_of_ne_nil (natToWord_ne_nil M)
  simp only [parseUnsigned, htk, hdr, hie]
  simp [readDigitsAux_natToWord]

theorem parseUnsigned_frac (M k : Nat) :
    parseUnsigned (natToWord (M / 10 ^ k) ++ '.' :: padDigits k (M % 10 ^ k)) =
      some ⟨(M : Int), k⟩ := by
  have hA := natToWord_all_digits (M / 10 ^ k)
  have hB := padDigits_all_digits k (M % 10 ^ k)
  have hdot : isDigitChar '.' = false := by decide
  have htk : (natToWord (M / 10 ^ k) ++ '.' :: padDigits k (M % 10 ^ k)).takeWhile
      isDigitChar = natToWord (M / 10 ^ k) :=
    takeWhile_append_stop (padDigits k (M % 10 ^ k)) hA hdot
  have hdr : (natToWord (M / 10 ^ k) ++ '.' :: padDigits k (M % 10 ^ k)).dropWhile
      isDigitChar = '.' :: padDigits k (M % 10 ^ k) :=
    dropWhile_append_stop (padDigits k (M % 10 ^ k)) hA hdot
  have hie : (natToWord (M / 10 ^ k)).isEmpty = false :=
    isEmpty_false_of_ne_nil (natToWord_ne_nil _)
  have htkB : (padDigits k (M % 10 ^ k)).takeWhile isDigitChar =
      padDigits k (M % 10 ^ k) := takeWhile_all _ hB
  have hdrB : (padDigits k (M % 10 ^ k)).dropWhile isDigitChar = [] :=
    dropWhile_all _ hB
  have hmod : M % 10 ^ k < 10 ^ k := Nat.mod_lt _ (Nat.pos_pow_of_pos k (by norm_num))
  simp only [parseUnsigned, htk, hdr, hie, Bool.false_eq_true, if_false]
  rw [if_pos (by rfl)]
  simp only [htkB, hdrB, padDigits_length, readDigitsAux_natToWord,
    readDigitsAux_padDigits k (M % 10 ^ k) 0 hmod]
  have hdm : 10 ^ k * (M / 10 ^ k) + M % 10 ^ k = M := Nat.div_add_mod M (10 ^ k)
  simp only [Option.some.injEq, Dec.mk.injEq, and_true]
  rw [zero_mul, zero_add, mul_comm]
  exact_mod_cast hdm

theorem parseNumWord_of_digit_head (c : Char) (r : List Char)
    (h : isDigitChar c = true) :
    parseNumWord (c :: r) = parseUnsigned (c :: r) := by
  have h1 : (c == '-') = false := by
    cases hc : c == '-' with
    | false => rfl
    | true => rw [eq_of_beq hc] at h; exact absurd h (by decide)
  have h2 : (c == '+') = false := by
    cases hc : c == '+' with
    | false => rfl
    | true => rw [eq_of_beq hc] at h; exact absurd h (by decide)
  simp [parseNumWord, h1, h2]

theorem parseUnsigned_core (M k : Nat) :
    parseUnsigned (if k = 0 then natToWord M
      else natToWord (M / 10 ^ k) ++ '.' :: padDigits k (M % 10 ^ k)) =
      some ⟨(M : Int), k⟩ := by
  by_cases hk : k = 0
  · subst hk; simp [parseUnsigned_int]
  · rw [if_neg hk]
    exact parseUnsigned_frac M k

theorem core_head_digit (M k : Nat) :
    ∃ c r, (if k = 0 then natToWord M
      else natToWord (M / 10 ^ k) ++ '.' :: padDigits k (M % 10 ^ k)) = c :: r ∧
      isDigitChar c = true := by
  by_cases hk : k = 0
  · rw [if_pos hk]
    cases hw : natToWord M with
    | nil => exact absurd hw (natToWord_ne_nil M)
    | cons c r =>
      exact ⟨c, r, rfl, natToWord_all_digits M c (by rw [hw]; simp)⟩
  · rw [if_neg hk]
    cases hw : natToWord (M / 10 ^ k) with
    | nil => exact absurd hw (natToWord_ne_nil _)
    | cons c r =>
      refine ⟨c, r ++ '.' :: padDigits k (M % 10 ^ k), by simp, ?_⟩
      exact natToWord_all_digits _ c (by rw [hw]; simp)

theorem parseNumWord_decToWord (d : Dec) : parseNumWord (decToWord d) = some d := by
  obtain ⟨m, k⟩ := d
  obtain ⟨c, r, hcore, hdig⟩ := core_head_digit m.natAbs k
  by_cases hm : m < 0
  · have hw : decToWord ⟨m, k⟩ = '-' ::
        (if k = 0 then natToWord m.natAbs
          else natToWord (m.natAbs / 10 ^ k) ++ '.' :: padDigits k (m.natAbs % 10 ^ k)) := by
      simp [decToWord, hm]
    rw [hw, parseNumWord]
    simp only [show (('-' : Char) == '-') = true from rfl, if_true]
    rw [parseUnsigned_core]
    have hneg : -((m.natAbs : Int)) = m := by omega
    have hmap : Option.map Dec.neg (some (⟨(m.natAbs : Int), k⟩ : Dec)) =
        some (⟨-((m.natAbs : Int)), k⟩ : Dec) := rfl
    rw [hmap, hneg]
  · have hw : decToWord ⟨m, k⟩ =
        (if k = 0 then natToWord m.natAbs
          else natToWord (m.natAbs / 10 ^ k) ++ '.' :: padDigits k (m.natAbs % 10 ^ k)) := by
      simp [decToWord, hm]
    rw [hw, hcore, parseNumWord_of_digit_head c r hdig, ← hcore, parseUnsigned_core]
    have habs : ((m.natAbs : Int)) = m := by omega
    simp [habs]

/-- Modelled from the spec (section 4.1): the classified tokens of the BVH
grammar: keywords, braces, numbers and identifiers. -/
inductive Token where
  | kwHierarchy | kwRoot | kwJoint | kwOffset | kwChannels
  | kwEnd | kwSite | kwMotion | kwFrames | kwFrame | kwTime
  | lbrace | rbrace
  | number (w : List Char)
  | ident (w : List Char)
deriving DecidableEq, Repr

/-- The text of a token, as the writer emits it. -/
def Token.text : Token → List Char
  | .kwHierarchy => "HIERARCHY".data
  | .kwRoot => "ROOT".data
  | .kwJoint => "JOINT".data
  | .kwOffset => "OFFSET".data
  | .kwChannels => "CHANNELS".data
  | .kwEnd => "End".data
  | .kwSite => "Site".data
  | .kwMotion => "MOTION".data
  | .kwFrames => "Frames:".data
  | .kwFrame => "Frame".data
  | .kwTime => "Time:".data
  | .lbrace => ['\x7b']
  | .rbrace => ['\x7d']
  | .number w => w
  | .ident w => w

/-- Modelled from the spec (section 4.1): classification of one
whitespace-delimited word as a keyword, brace, number or identifier. -/
def classify (w : List Char) : Token :=
  if w = "HIERARCHY".data then .kwHierarchy
  else if w = "ROOT".data then .kwRoot
  else if w = "JOINT".data then .kwJoint
  else if w = "OFFSET".data then .kwOffset
  else if w = "CHANNELS".data then .kwChannels
  else if w = "End".data then .kwEnd
  else if w = "Site".data then .kwSite
  else if w = "MOTION".data then .kwMotion
  else if w = "Frames:".data then .kwFrames
  else if w = "Frame".data then .kwFrame
  else if w = "Time:".data then .kwTime
  else if w = ['\x7b'] then .lbrace
  else if w = ['\x7d'] then .rbrace
  else if (parseNumWord w).isSome then .number w
  else .ident w

/-- Split text into maximal whitespace-free words; acc holds the
characters of the current word in reverse. -/
def wordsAux : List Char → List Char → List (List Char)
  | [], acc => if acc.isEmpty then [] else [acc.reverse]
  | c :: cs, acc =>
    if isWsChar c then
      if acc.isEmpty then wordsAux cs [] else acc.reverse :: wordsAux cs []
    else wordsAux cs (c :: acc)

/-- Split text into whitespace-delimited words. -/
def words (s : List Char) : List (List Char) := wordsAux s []

/-- Modelled from the spec (section 4.1): the lexer splits raw text on
arbitrary whitespace and classifies each word.  Whitespace performs no
semantic role beyond separation. -/
def lex (s : List Char) : List Token := (words s).map classify

/-- Render a token list back to text, one whitespace separator after
every token.  The spec (section 4.5) treats the exact indentation and
newline layout of the writer as cosmetic. -/
def render : List Token → List Char
  | [] => []
  | t :: ts => t.text ++ ' ' :: render ts

/-- Modelled from the spec (section 3): the closed channel enumeration. -/
inductive ChannelType where
  | xPosition | yPosition | zPosition | xRotation | yRotation | zRotation
deriving DecidableEq, Repr

/-- The channel-type word in BVH text. -/
def ChannelType.word : ChannelType → List Char
  | .xPosition => "Xposition".data
  | .yPosition => "Yposition".data
  | .zPosition => "Zposition".data
  | .xRotation => "Xrotation".data
  | .yRotation => "Yrotation".data
  | .zRotation => "Zrotation".data

/-- Recognise a channel-type word. -/
def channelTypeOfWord (w : List Char) : Option ChannelType :=
  if w = "Xposition".data then some .xPosition
  else if w = "Yposition".data then some .yPosition
  else if w = "Zposition".data then some .zPosition
  else if w = "Xrotation".data then some .xRotation
  else if w = "Yrotation".data then some .yRotation
  else if w = "Zrotation".data then some .zRotation
  else none

/-- Modelled from the spec (section 3): one animated degree of freedom,
with its absolute column index in a frame row. -/
structure Channel where
  type : ChannelType
  index : Nat
deriving DecidableEq, Repr

/-- Modelled from the spec (section 3): a 3d position value, used for
joint offsets and end sites. -/
structure Point where
  x : Dec
  y : Dec
  z : Dec
deriving DecidableEq, Repr

mutual
/-- Modelled from the spec (section 3): a node of the skeleton tree with
its name, offset, channel list, optional end site, depth and children. -/
inductive Joint where
  | node (name : List Char) (offset : Point) (channels : List Channel)
      (endSite : Option Point) (depth : Nat) (children : JointForest)
/-- The ordered children of a joint. -/
inductive JointForest where
  | nil
  | cons (head : Joint) (tail : JointForest)
end

/-- Modelled from the spec (section 3): the validated in-memory model of
one parsed BVH file. -/
structure AnimationFile where
  root : Joint
  frameTime : Dec
  frameCount : Nat
  channelCount : Nat
  frames : List (List Dec)

def Joint.name : Joint → List Char
  | .node n _ _ _ _ _ => n

def Joint.offset : Joint → Point
  | .node _ o _ _ _ _ => o

def Joint.channels : Joint → List Channel
  | .node _ _ cs _ _ _ => cs

def Joint.endSite : Joint → Option Point
  | .node _ _ _ es _ _ => es

def Joint.depth : Joint → Nat
  | .node _ _ _ _ d _ => d

def Joint.children : Joint → JointForest
  | .node _ _ _ _ _ kids => kids

def JointForest.toList : JointForest → List Joint
  | .nil => []
  | .cons j js => j :: js.toList

mutual
/-- Depth-first pre-order flattening of a joint subtree. -/
def Joint.flatten : Joint → List Joint
  | .node n o cs es d kids => .node n o cs es d kids :: JointForest.flattenF kids
/-- Depth-first pre-order flattening of a forest. -/
def JointForest.flattenF : JointForest → List Joint
  | .nil => []
  | .cons j js => Joint.flatten j ++ JointForest.flattenF js
end

/-- The depth-first pre-order joint sequence of a file (spec section 3:
the root joint is always the first entry). -/
def AnimationFile.joints (F : AnimationFile) : List Joint := F.root.flatten

mutual
/-- Total number of channels declared in a joint subtree. -/
def Joint.nch : Joint → Nat
  | .node _ _ cs _ _ kids => cs.length + JointForest.nchF kids
/-- Total number of channels declared in a forest. -/
def JointForest.nchF : JointForest → Nat
  | .nil => 0
  | .cons j js => Joint.nch j + JointForest.nchF js
end

mutual
/-- All joint names in a subtree. -/
def Joint.namesJ : Joint → List (List Char)
  | .node n _ _ _ _ kids => n :: JointForest.namesF kids
/-- All joint names in a forest. -/
def JointForest.namesF : JointForest → List (List Char)
  | .nil => []
  | .cons j js => Joint.namesJ j ++ JointForest.namesF js
end

mutual
/-- The depth invariant (spec section 8, property 4): every child joint
is one level deeper than its parent. -/
def DepthOkJ : Joint → Prop
  | .node _ _ _ _ d kids => DepthOkF d kids
/-- Depth invariant for a forest of children of a joint at depth d. -/
def DepthOkF : Nat → JointForest → Prop
  | _, .nil => True
  | d, .cons j js => j.depth = d + 1 ∧ DepthOkJ j ∧ DepthOkF d js
end

/-- Modelled from the spec (section 7): the error taxonomy.  The payload
records expected versus found context.  In this embedding every word
classifies as some token, so the lexError case is never produced; it is
kept to mirror the taxonomy. -/
inductive Err where
  | lexError (pos : Nat)
  | hierarchyParseError (expected : List Char) (found : List Token)
  | motionParseError (expected : List Char) (found : List Token)
  | numberFormatError (w : List Char)
deriving DecidableEq, Repr

/-- Require one exact token inside the hierarchy section; on mismatch
report a HierarchyParseError (spec section 4.2). -/
def expectH (t : Token) (e : List Char) (ts : List Token) :
    Except Err (List Token) :=
  match ts with
  | t' :: r => if t' = t then .ok r else .error (.hierarchyParseError e (t' :: r))
  | [] => .error (.hierarchyParseError e [])

/-- Read the joint-name identifier token. -/
def readIdent (ts : List Token) : Except Err (List Char × List Token) :=
  match ts with
  | .ident w :: r => .ok (w, r)
  | _ => .error (.hierarchyParseError "joint name".data ts)

/-- Read one numeric token inside the hierarchy section (spec section
4.2: a malformed numeric offset is a HierarchyParseError). -/
def readNumH (ts : List Token) : Except Err (Dec × List Token) :=
  match ts with
  | .number w :: r =>
    match parseNumWord w with
    | some d => .ok (d, r)
    | none => .error (.hierarchyParseError "number".data ts)
  | _ => .error (.hierarchyParseError "number".data ts)

/-- Read one unsigned integer token inside the hierarchy section. -/
def readNatH (ts : List Token) : Except Err (Nat × List Token) :=
  match ts with
  | .number w :: r =>
    match parseNatWord w with
    | some n => .ok (n, r)
    | none => .error (.hierarchyParseError "integer".data ts)
  | _ => .error (.hierarchyParseError "integer".data ts)

/-- Modelled from the spec (section 4.2): read OFFSET and three floats. -/
def parseOffsetTriple (ts : List Token) : Except Err (Point × List Token) :=
  match expectH .kwOffset "OFFSET".data ts with
  | .error e => .error e
  | .ok r0 =>
    match readNumH r0 with
    | .error e => .error e
    | .ok (x, r1) =>
      match readNumH r1 with
      | .error e => .error e
      | .ok (y, r2) =>
        match readNumH r2 with
        | .error e => .error e
        | .ok (z, r3) => .ok (⟨x, y, z⟩, r3)

/-- Modelled from the spec (section 4.2): read exactly n channel-type
tokens, appending Channel entries numbered from the running counter. -/
def parseNChannels : Nat → Nat → List Token →
    Except Err (List Channel × Nat × List Token)
  | 0, ctr, ts => .ok ([], ctr, ts)
  | n + 1, ctr, ts =>
    match ts with
    | .ident w :: r =>
      match channelTypeOfWord w with
      | some ty =>
        match parseNChannels n (ctr + 1) r with
        | .ok (cs, c', r') => .ok (⟨ty, ctr⟩ :: cs, c', r')
        | .error e => .error e
      | none => .error (.hierarchyParseError "channel type".data ts)
    | _ => .error (.hierarchyParseError "channel type".data ts)

/-- Modelled from the spec (sections 4.2 and 6): the CHANNELS line: the
keyword, a declared count, then exactly that many channel-type tokens
(the grammar requires at least one). -/
def parseChannelsDecl (ctr : Nat) (ts : List Token) :
    Except Err (List Channel × Nat × List Token) :=
  match expectH .kwChannels "CHANNELS".data ts with
  | .error e => .error e
  | .ok r0 =>
    match readNatH r0 with
    | .error e => .error e
    | .ok (n, r1) =>
      if n = 0 then .error (.hierarchyParseError "positive channel count".data r1)
      else parseNChannels n ctr r1

/-- Tokens closing a joint block: either the closing brace alone, or a
terminal End Site block followed by the closing brace (spec section 3:
an end site terminates the child list of the block). -/
def endCloseToks : Option Point → List Token
  | none => [.rbrace]
  | some p => [.kwEnd, .kwSite, .lbrace, .kwOffset,
      .number (decToWord p.x), .number (decToWord p.y), .number (decToWord p.z),
      .rbrace, .rbrace]

mutual
/-- Modelled from the spec (section 4.2): parse one joint block after its
ROOT or JOINT keyword: name, open brace, OFFSET line, CHANNELS line, then
nested joints and an optional terminal End Site, then the close brace.
The running channel counter and the depth of this joint are threaded
through; fuel bounds the recursion depth and exceeds any input consumed
by the top-level entry point. -/
def parseJointNamed : Nat → Nat → Nat → List Token →
    Except Err (Joint × Nat × List Token)
  | 0, _, _, ts => .error (.hierarchyParseError "nesting fuel".data ts)
  | fuel + 1, depth, ctr, ts =>
    match readIdent ts with
    | .error e => .error e
    | .ok (name, r0) =>
      match expectH .lbrace "open brace".data r0 with
      | .error e => .error e
      | .ok r1 =>
        match parseOffsetTriple r1 with
        | .error e => .error e
        | .ok (off, r2) =>
          match parseChannelsDecl ctr r2 with
          | .error e => .error e
          | .ok (chs, ctr1, r3) =>
            match parseBody fuel depth ctr1 r3 with
            | .error e => .error e
            | .ok (kids, es, ctr2, r4) =>
              .ok (.node name off chs es depth kids, ctr2, r4)

/-- Modelled from the spec (section 4.2): the body of a joint block after
the CHANNELS line: zero or more nested JOINT blocks, then either an End
Site block followed by the closing brace, or the closing brace alone.
The depth argument is the depth of the enclosing joint; nested joints
get depth one greater. -/
def parseBody : Nat → Nat → Nat → List Token →
    Except Err (JointForest × Option Point × Nat × List Token)
  | 0, _, _, ts => .error (.hierarchyParseError "nesting fuel".data ts)
  | fuel + 1, depth, ctr, ts =>
    match ts with
    | .rbrace :: r => .ok (.nil, none, ctr, r)
    | .kwEnd :: r =>
      match expectH .kwSite "Site".data r with
      | .error e => .error e
      | .ok r0 =>
        match expectH .lbrace "open brace".data r0 with
        | .error e => .error e
        | .ok r1 =>
          match parseOffsetTriple r1 with
          | .error e => .error e
          | .ok (p, r2) =>
            match expectH .rbrace "close brace".data r2 with
            | .error e => .error e
            | .ok r3 =>
              match expectH .rbrace "close brace".data r3 with
              | .error e => .error e
              | .ok r4 => .ok (.nil, some p, ctr, r4)
    | .kwJoint :: r =>
      match parseJointNamed fuel (depth + 1) ctr r with
      | .error e => .error e
      | .ok (j, ctr1, r1) =>
        match parseBody fuel depth ctr1 r1 with
        | .error e => .error e
        | .ok (js, es, ctr2, r2) => .ok (.cons j js, es, ctr2, r2)
    | _ => .error (.hierarchyParseError "JOINT, End Site, or close brace".data ts)
end

/-- Modelled from the spec (section 4.2): the hierarchy section: the
HIERARCHY keyword, then exactly one ROOT block.  Returns the root joint,
the file-wide channel count and the remaining tokens. -/
def parseHierarchy (fuel : Nat) (ts : List Token) :
    Except Err (Joint × Nat × List Token) :=
  match expectH .kwHierarchy "HIERARCHY".data ts with
  | .error e => .error e
  | .ok r0 =>
    match expectH .kwRoot "ROOT".data r0 with
    | .error e => .error e
    | .ok r1 => parseJointNamed fuel 0 0 r1

/-- Read one frame value (spec sections 4.3 and 7: a non-numeric token in
the data block is a NumberFormatError; running out of tokens is a
MotionParseError). -/
def readFrameVal (ts : List Token) : Except Err (Dec × List Token) :=
  match ts with
  | .number w :: r =>
    match parseNumWord w with
    | some d => .ok (d, r)
    | none => .error (.numberFormatError w)
  | .ident w :: _ => .error (.numberFormatError w)
  | _ :: _ => .error (.motionParseError "frame value".data ts)
  | [] => .error (.motionParseError "frame value".data [])

/-- Require one exact token inside the motion section. -/
def expectM (t : Token) (e : List Char) (ts : List Token) :
    Except Err (List Token) :=
  match ts with
  | t' :: r => if t' = t then .ok r else .error (.motionParseError e (t' :: r))
  | [] => .error (.motionParseError e [])

/-- Read the frame count (spec section 4.3). -/
def readNatM (ts : List Token) : Except Err (Nat × List Token) :=
  match ts with
  | .number w :: r =>
    match parseNatWord w with
    | some n => .ok (n, r)
    | none => .error (.numberFormatError w)
  | _ => .error (.motionParseError "integer".data ts)

/-- Modelled from the spec (section 4.3): one frame row of exactly
cc values. -/
def parseRow : Nat → List Token → Except Err (List Dec × List Token)
  | 0, ts => .ok ([], ts)
  | n + 1, ts =>
    match readFrameVal ts with
    | .error e => .error e
    | .ok (v, r) =>
      match parseRow n r with
      | .error e => .error e
      | .ok (vs, r') => .ok (v :: vs, r')

/-- Modelled from the spec (section 4.3): exactly fc rows of cc values. -/
def parseFrames : Nat → Nat → List Token →
    Except Err (List (List Dec) × List Token)
  | 0, _, ts => .ok ([], ts)
  | fc + 1, cc, ts =>
    match parseRow cc ts with
    | .error e => .error e
    | .ok (row, r) =>
      match parseFrames fc cc r with
      | .error e => .error e
      | .ok (rows, r') => .ok (row :: rows, r')

/-- Modelled from the spec (section 4.3): the motion section: MOTION,
the Frames: count, the Frame Time: value, then exactly frame count rows
of channel count values each. -/
def parseMotion (cc : Nat) (ts : List Token) :
    Except Err (Dec × Nat × List (List Dec) × List Token) :=
  match expectM .kwMotion "MOTION".data ts with
  | .error e => .error e
  | .ok r0 =>
    match expectM .kwFrames "Frames:".data r0 with
    | .error e => .error e
    | .ok r1 =>
      match readNatM r1 with
      | .error e => .error e
      | .ok (fc, r2) =>
        match expectM .kwFrame "Frame".data r2 with
        | .error e => .error e
        | .ok r3 =>
          match expectM .kwTime "Time:".data r3 with
          | .error e => .error e
          | .ok r4 =>
            match readFrameVal r4 with
            | .error e => .error e
            | .ok (ft, r5) =>
              match parseFrames fc cc r5 with
              | .error e => .error e
              | .ok (rows, r6) => .ok (ft, fc, rows, r6)

/-- Modelled from the spec (sections 4.2 to 4.4): parse a whole token
stream into an AnimationFile.  The channel count accumulated by the
hierarchy walk parameterises the motion parser; after the declared rows
only end of input may remain (the lexer already discards whitespace, so
trailing blank lines are ignored). -/
def parseTokens (ts : List Token) : Except Err AnimationFile :=
  match parseHierarchy (ts.length + 1) ts with
  | .error e => .error e
  | .ok (root, cc, r) =>
    match parseMotion cc r with
    | .error e => .error e
    | .ok (ft, fc, rows, r') =>
      match r' with
      | [] => .ok ⟨root, ft, fc, cc, rows⟩
      | _ => .error (.motionParseError "end of input".data r')

/-- Modelled from the spec (sections 4.1 to 4.4): the parsing entry
point: lex the text, then parse the token stream.  Either a complete
AnimationFile is produced or an error is reported and no model is handed
back. -/
def parse (s : List Char) : Except Err AnimationFile := parseTokens (lex s)

mutual
/-- Modelled from the spec (section 4.5): writer output for one joint
block, starting after its ROOT or JOINT keyword. -/
def Joint.writeToksJ : Joint → List Token
  | .node n o cs es _ kids =>
    .ident n :: .lbrace :: .kwOffset ::
      .number (decToWord o.x) :: .number (decToWord o.y) :: .number (decToWord o.z) ::
      .kwChannels :: .number (natToWord cs.length) ::
      (cs.map (fun c => Token.ident c.type.word) ++
        (JointForest.writeToksF kids ++ endCloseToks es))
/-- Writer output for a forest of nested joints. -/
def JointForest.writeToksF : JointForest → List Token
  | .nil => []
  | .cons j js => .kwJoint :: (Joint.writeToksJ j ++ JointForest.writeToksF js)
end

/-- Writer output for the frame rows, row major. -/
def rowsToks : List (List Dec) → List Token
  | [] => []
  | row :: rows => row.map (fun v => Token.number (decToWord v)) ++ rowsToks rows

/-- Modelled from the spec (section 4.5): the writer serialises a model
to tokens: the hierarchy, then the motion section. -/
def writeTokens (F : AnimationFile) : List Token :=
  .kwHierarchy :: .kwRoot :: (F.root.writeToksJ ++
    (.kwMotion :: .kwFrames :: .number (natToWord F.frameCount) ::
      .kwFrame :: .kwTime :: .number (decToWord F.frameTime) ::
      rowsToks F.frames))

/-- Modelled from the spec (section 4.5): the writer serialises a model
to BVH text.  Writing never fails for a structurally valid model. -/
def write (F : AnimationFile) : List Char := render (writeTokens F)

theorem not_ws_of_digit {c : Char} (h : isDigitChar c = true) :
    isWsChar c = false := by
  cases hws : isWsChar c with
  | false => rfl
  | true =>
    simp only [isWsChar, Bool.or_eq_true, beq_iff_eq] at hws
    rcases hws with ((h1 | h1) | h1) | h1 <;> (subst h1; exact absurd h (by decide))

theorem words_sane (s : List Char) :
    ∀ w ∈ words s, w ≠ [] ∧ ∀ c ∈ w, isWsChar c = false := by
  suffices h : ∀ s acc, (∀ c ∈ acc, isWsChar c = false) →
      ∀ w ∈ wordsAux s acc, w ≠ [] ∧ ∀ c ∈ w, isWsChar c = false by
    exact h s [] (by simp)
  intro s
  induction s with
  | nil =>
    intro acc hacc w hw
    by_cases he : acc.isEmpty
    · simp [wordsAux, he] at hw
    · simp only [wordsAux, he, if_false, Bool.false_eq_true, List.mem_singleton] at hw
      subst hw
      constructor
      · intro h0
        rw [List.reverse_eq_nil_iff] at h0
        subst h0
        simp at he
      · intro c hc
        exact hacc c (List.mem_reverse.mp hc)
  | cons c cs ih =>
    intro acc hacc w hw
    rw [wordsAux] at hw
    by_cases hws : isWsChar c
    · rw [if_pos hws] at hw
      by_cases he : acc.isEmpty
      · rw [if_pos he] at hw
        exact ih [] (by simp) w hw
      · rw [if_neg he] at hw
        rcases List.mem_cons.mp hw with h0 | h0
        · subst h0
          constructor
          · intro h0
            rw [List.reverse_eq_nil_iff] at h0
            subst h0
            simp at he
          · intro x hx
            exact hacc x (List.mem_reverse.mp hx)
        · exact ih [] (by simp) w h0
    · rw [if_neg hws] at hw
      refine ih (c :: acc) ?_ w hw
      intro x hx
      rcases List.mem_cons.mp hx with h0 | h0
      · subst h0
        exact Bool.of_not_eq_true hws
      · exact hacc x h0

theorem wordsAux_word (w : List Char) :
    ∀ acc rest, (∀ c ∈ w, isWsChar c = false) → (acc = [] → w ≠ []) →
      wordsAux (w ++ ' ' :: rest) acc = (acc.reverse ++ w) :: wordsAux rest [] := by
  induction w with
  | nil =>
    intro acc rest _ hne
    have hacc : acc ≠ [] := fun h0 => (hne h0) rfl
    have he : acc.isEmpty = false := by
      cases acc with
      | nil => exact absurd rfl hacc
      | cons a as => rfl
    simp [wordsAux, he, isWsChar]
  | cons c cs ih =>
    intro acc rest hall _
    have hc : isWsChar c = false := hall c (by simp)
    rw [List.cons_append, wordsAux, if_neg (by rw [hc]; exact Bool.false_ne_true)]
    rw [ih (c :: acc) rest (fun x hx => hall x (by simp [hx])) (by simp)]
    simp

theorem words_cons_word (w : List Char) (rest : List Char)
    (hall : ∀ c ∈ w, isWsChar c = false) (hne : w ≠ []) :
    words (w ++ ' ' :: rest) = w :: words rest := by
  rw [words, wordsAux_word w [] rest hall (fun _ => hne)]
  simp [words]

/-- A token whose text survives the render and lex round trip. -/
def TokOk (t : Token) : Prop :=
  t.text ≠ [] ∧ (∀ c ∈ t.text, isWsChar c = false) ∧ classify t.text = t

theorem lex_render (ts : List Token) (h : ∀ t ∈ ts, TokOk t) :
    lex (render ts) = ts := by
  induction ts with
  | nil => rfl
  | cons t ts ih =>
    obtain ⟨hne, hws, hcl⟩ := h t (by simp)
    rw [render, lex, words_cons_word t.text (render ts) hws hne]
    rw [List.map_cons, hcl]
    have := ih (fun x hx => h x (by simp [hx]))
    rw [lex] at this
    rw [this]

theorem classify_number {w : List Char} (h : (parseNumWord w).isSome = true) :
    classify w = .number w := by
  have h1 : w ≠ "HIERARCHY".data := fun he => by rw [he] at h; exact absurd h (by decide)
  have h2 : w ≠ "ROOT".data := fun he => by rw [he] at h; exact absurd h (by decide)
  have h3 : w ≠ "JOINT".data := fun he => by rw [he] at h; exact absurd h (by decide)
  have h4 : w ≠ "OFFSET".data := fun he => by rw [he] at h; exact absurd h (by decide)
  have h5 : w ≠ "CHANNELS".data := fun he => by rw [he] at h; exact absurd h (by decide)
  have h6 : w ≠ "End".data := fun he => by rw [he] at h; exact absurd h (by decide)
  have h7 : w ≠ "Site".data := fun he => by rw [he] at h; exact absurd h (by decide)
  have h8 : w ≠ "MOTION".data := fun he => by rw [he] at h; exact absurd h (by decide)
  have h9 : w ≠ "Frames:".data := fun he => by rw [he] at h; exact absurd h (by decide)
  have h10 : w ≠ "Frame".data := fun he => by rw [he] at h; exact absurd h (by decide)
  have h11 : w ≠ "Time:".data := fun he => by rw [he] at h; exact absurd h (by decide)
  have h12 : w ≠ ['\x7b'] := fun he => by rw [he] at h; exact absurd h (by decide)
  have h13 : w ≠ ['\x7d'] := fun he => by rw [he] at h; exact absurd h (by decide)
  rw [classify, if_neg h1, if_neg h2, if_neg h3, if_neg h4, if_neg h5, if_neg h6, if_neg h7, if_neg h8, if_neg h9, if_neg h10, if_neg h11, if_neg h12, if_neg h13, if_pos h]

theorem classify_ident_inv {w v : List Char} (h : classify w = .ident v) :
    v = w ∧ classify w = .ident w := by
  rw [classify] at h
  by_cases h1 : w = "HIERARCHY".data
  · rw [if_pos h1] at h; exact absurd h (by simp)
  rw [if_neg h1] at h
  by_cases h2 : w = "ROOT".data
  · rw [if_pos h2] at h; exact absurd h (by simp)
  rw [if_neg h2] at h
  by_cases h3 : w = "JOINT".data
  · rw [if_pos h3] at h; exact absurd h (by simp)
  rw [if_neg h3] at h
  by_cases h4 : w = "OFFSET".data
  · rw [if_pos h4] at h; exact absurd h (by simp)
  rw [if_neg h4] at h
  by_cases h5 : w = "CHANNELS".data
  · rw [if_pos h5] at h; exact absurd h (by simp)
  rw [if_neg h5] at h
  by_cases h6 : w = "End".data
  · rw [if_pos h6] at h; exact absurd h (by simp)
  rw [if_neg h6] at h
  by_cases h7 : w = "Site".data
  · rw [if_pos h7] at h; exact absurd h (by simp)
  rw [if_neg h7] at h
  by_cases h8 : w = "MOTION".data
  · rw [if_pos h8] at h; exact absurd h (by simp)
  rw [if_neg h8] at h
  by_cases h9 : w = "Frames:".data
  · rw [if_pos h9] at h; exact absurd h (by simp)
  rw [if_neg h9] at h
  by_cases h10 : w = "Frame".data
  · rw [if_pos h10] at h; exact absurd h (by simp)
  rw [if_neg h10] at h
  by_cases h11 : w = "Time:".data
  · rw [if_pos h11] at h; exact absurd h (by simp)
  rw [if_neg h11] at h
  by_cases h12 : w = ['\x7b']
  · rw [if_pos h12] at h; exact absurd h (by simp)
  rw [if_neg h12] at h
  by_cases h13 : w = ['\x7d']
  · rw [if_pos h13] at h; exact absurd h (by simp)
  rw [if_neg h13] at h
  by_cases h14 : (parseNumWord w).isSome = true
  · rw [if_pos h14] at h; exact absurd h (by simp)
  rw [if_neg h14] at h
  have hv : v = w := by
    have := h
    simp only [Token.ident.injEq] at this
    exact this.symm
  exact ⟨hv, by rw [classify, if_neg h1, if_neg h2, if_neg h3, if_neg h4, if_neg h5, if_neg h6, if_neg h7, if_neg h8, if_neg h9, if_neg h10, if_neg h11, if_neg h12, if_neg h13, if_neg h14]⟩

theorem tokOk_kwHierarchy : TokOk .kwHierarchy := ⟨by decide, by decide, by decide⟩

theorem tokOk_kwRoot : TokOk .kwRoot := ⟨by decide, by decide, by decide⟩

theorem tokOk_kwJoint : TokOk .kwJoint := ⟨by decide, by decide, by decide⟩

theorem tokOk_kwOffset : TokOk .kwOffset := ⟨by decide, by decide, by decide⟩

theorem tokOk_kwChannels : TokOk .kwChannels := ⟨by decide, by decide, by decide⟩

theorem tokOk_kwEnd : TokOk .kwEnd := ⟨by decide, by decide, by decide⟩

theorem tokOk_kwSite : TokOk .kwSite := ⟨by decide, by decide, by decide⟩

theorem tokOk_kwMotion : TokOk .kwMotion := ⟨by decide, by decide, by decide⟩

theorem tokOk_kwFrames : TokOk .kwFrames := ⟨by decide, by decide, by decide⟩

theorem tokOk_kwFrame : TokOk .kwFrame := ⟨by decide, by decide, by decide⟩

theorem tokOk_kwTime : TokOk .kwTime := ⟨by decide, by decide, by decide⟩

theorem tokOk_lbrace : TokOk .lbrace := ⟨by decide, by decide, by decide⟩

theorem tokOk_rbrace : TokOk .rbrace := ⟨by decide, by decide, by decide⟩

theorem tokOk_channel_word (ty : ChannelType) : TokOk (Token.ident ty.word) := by
  cases ty <;> exact ⟨by decide, by decide, by decide⟩

theorem channelTypeOfWord_word (ty : ChannelType) :
    channelTypeOfWord ty.word = some ty := by
  cases ty <;> decide

theorem decToWord_natCast (n : Nat) : decToWord ⟨(n : Int), 0⟩ = natToWord n := by
  simp [decToWord]

theorem parseNumWord_natToWord (n : Nat) :
    parseNumWord (natToWord n) = some ⟨(n : Int), 0⟩ := by
  rw [← decToWord_natCast]
  exact parseNumWord_decToWord _

theorem decToWord_ne_nil (d : Dec) : decToWord d ≠ [] := by
  obtain ⟨m, k⟩ := d
  obtain ⟨c, r, hcore, _⟩ := core_head_digit m.natAbs k
  by_cases hm : m < 0
  · simp [decToWord, hm]
  · simp [decToWord, hm, hcore]

theorem decToWord_no_ws (d : Dec) : ∀ c ∈ decToWord d, isWsChar c = false := by
  obtain ⟨m, k⟩ := d
  have hcore : ∀ c, c ∈ (if k = 0 then natToWord m.natAbs
      else natToWord (m.natAbs / 10 ^ k) ++ '.' :: padDigits k (m.natAbs % 10 ^ k)) →
      isWsChar c = false := by
    intro c hc
    by_cases hk : k = 0
    · rw [if_pos hk] at hc
      exact not_ws_of_digit (natToWord_all_digits _ c hc)
    · rw [if_neg hk] at hc
      rcases List.mem_append.mp hc with h0 | h0
      · exact not_ws_of_digit (natToWord_all_digits _ c h0)
      · rcases List.mem_cons.mp h0 with h1 | h1
        · subst h1; decide
        · exact not_ws_of_digit (padDigits_all_digits _ _ c h1)
  intro c hc
  by_cases hm : m < 0
  · have hw : decToWord ⟨m, k⟩ = '-' ::
        (if k = 0 then natToWord m.natAbs
          else natToWord (m.natAbs / 10 ^ k) ++ '.' :: padDigits k (m.natAbs % 10 ^ k)) := by
      simp [decToWord, hm]
    rw [hw] at hc
    rcases List.mem_cons.mp hc with h1 | h1
    · subst h1; decide
    · exact hcore c h1
  · have hw : decToWord ⟨m, k⟩ =
        (if k = 0 then natToWord m.natAbs
          else natToWord (m.natAbs / 10 ^ k) ++ '.' :: padDigits k (m.natAbs % 10 ^ k)) := by
      simp [decToWord, hm]
    rw [hw] at hc
    exact hcore c hc

theorem tokOk_number_dec (d : Dec) : TokOk (.number (decToWord d)) :=
  ⟨decToWord_ne_nil d, fun c hc => decToWord_no_ws d c hc,
   classify_number (by
    show (parseNumWord (decToWord d)).isSome = true
    rw [parseNumWord_decToWord]
    rfl)⟩

theorem tokOk_number_nat (n : Nat) : TokOk (.number (natToWord n)) := by
  rw [← decToWord_natCast]
  exact tokOk_number_dec _

/-- Contiguous index sequence starting at c, of the given length. -/
def idxSeq : Nat → Nat → List Nat
  | _, 0 => []
  | c, n + 1 => c :: idxSeq (c + 1) n

theorem idxSeq_eq_range_map : ∀ n c, idxSeq c n = (List.range n).map (fun i => c + i) := by
  intro n
  induction n with
  | zero => intro c; rfl
  | succ n ih =>
    intro c
    rw [idxSeq, List.range_succ_eq_map, List.map_cons, ih (c + 1), List.map_map]
    simp only [List.cons.injEq]
    refine ⟨by omega, ?_⟩
    apply List.map_congr_left
    intro i _
    simp only [Function.comp_apply]
    omega

theorem idxSeq_zero_eq_range (n : Nat) : idxSeq 0 n = List.range n := by
  rw [idxSeq_eq_range_map]
  simp

theorem idxSeq_append : ∀ a c b, idxSeq c (a + b) = idxSeq c a ++ idxSeq (c + a) b := by
  intro a
  induction a with
  | zero => intro c b; simp [idxSeq]
  | succ a ih =>
    intro c b
    have h1 : a + 1 + b = (a + b) + 1 := by omega
    rw [h1, idxSeq, idxSeq, ih (c + 1) b]
    simp only [List.cons_append, List.cons.injEq, true_and]
    have h2 : c + 1 + a = c + (a + 1) := by omega
    rw [h2]

/-- The channel list of a joint carries exactly the contiguous indices
starting at the running counter value c (spec section 3). -/
def ChansFrom (c : Nat) (cs : List Channel) : Prop :=
  cs.map Channel.index = idxSeq c cs.length

mutual
/-- Invariants established by the hierarchy parser for a joint parsed
with running counter c at depth d. -/
def WFJ : Nat → Nat → Joint → Prop
  | c, d, .node _ _ chs _ dep kids =>
    dep = d ∧ chs ≠ [] ∧ ChansFrom c chs ∧ WFF (c + chs.length) (d + 1) kids
/-- Invariants for a forest of sibling joints at depth d, starting the
counter at c. -/
def WFF : Nat → Nat → JointForest → Prop
  | _, _, .nil => True
  | c, d, .cons j js => WFJ c d j ∧ WFF (c + j.nch) d js
end

/-- Channel lists of a joint sequence, concatenated in order. -/
def catChannels : List Joint → List Channel
  | [] => []
  | j :: js => j.channels ++ catChannels js

theorem catChannels_append (a b : List Joint) :
    catChannels (a ++ b) = catChannels a ++ catChannels b := by
  induction a with
  | nil => rfl
  | cons j js ih => simp [catChannels, ih]

theorem expectH_ok {t : Token} {e : List Char} {ts r : List Token}
    (h : expectH t e ts = .ok r) : ts = t :: r := by
  cases ts with
  | nil => simp [expectH] at h
  | cons t' ts' =>
    rw [expectH] at h
    by_cases he : t' = t
    · rw [if_pos he] at h
      simp only [Except.ok.injEq] at h
      rw [he, h]
    · rw [if_neg he] at h
      simp at h

theorem expectM_ok {t : Token} {e : List Char} {ts r : List Token}
    (h : expectM t e ts = .ok r) : ts = t :: r := by
  cases ts with
  | nil => simp [expectM] at h
  | cons t' ts' =>
    rw [expectM] at h
    by_cases he : t' = t
    · rw [if_pos he] at h
      simp only [Except.ok.injEq] at h
      rw [he, h]
    · rw [if_neg he] at h
      simp at h

theorem readIdent_ok {ts : List Token} {w : List Char} {r : List Token}
    (h : readIdent ts = .ok (w, r)) : ts = .ident w :: r := by
  cases ts with
  | nil => simp [readIdent] at h
  | cons t ts' => cases t <;> simp_all [readIdent]

theorem readNumH_ok {ts : List Token} {d : Dec} {r : List Token}
    (h : readNumH ts = .ok (d, r)) :
    ∃ w, ts = .number w :: r ∧ parseNumWord w = some d := by
  cases ts with
  | nil => simp [readNumH] at h
  | cons t ts' =>
    cases t with
    | number w =>
      rw [readNumH] at h
      cases hp : parseNumWord w with
      | none => rw [hp] at h; simp at h
      | some d' =>
        rw [hp] at h
        simp only [Except.ok.injEq, Prod.mk.injEq] at h
        exact ⟨w, by rw [h.2], by rw [hp, h.1]⟩
    | _ => simp [readNumH] at h

theorem readNatH_ok {ts : List Token} {n : Nat} {r : List Token}
    (h : readNatH ts = .ok (n, r)) :
    ∃ w, ts = .number w :: r ∧ parseNatWord w = some n := by
  cases ts with
  | nil => simp [readNatH] at h
  | cons t ts' =>
    cases t with
    | number w =>
      rw [readNatH] at h
      cases hp : parseNatWord w with
      | none => rw [hp] at h; simp at h
      | some n' =>
        rw [hp] at h
        simp only [Except.ok.injEq, Prod.mk.injEq] at h
        exact ⟨w, by rw [h.2], by rw [hp, h.1]⟩
    | _ => simp [readNatH] at h

theorem readNatM_ok {ts : List Token} {n : Nat} {r : List Token}
    (h : readNatM ts = .ok (n, r)) :
    ∃ w, ts = .number w :: r ∧ parseNatWord w = some n := by
  cases ts with
  | nil => simp [readNatM] at h
  | cons t ts' =>
    cases t with
    | number w =>
      rw [readNatM] at h
      cases hp : parseNatWord w with
      | none => rw [hp] at h; simp at h
      | some n' =>
        rw [hp] at h
        simp only [Except.ok.injEq, Prod.mk.injEq] at h
        exact ⟨w, by rw [h.2], by rw [hp, h.1]⟩
    | _ => simp [readNatM] at h

theorem readFrameVal_ok {ts : List Token} {d : Dec} {r : List Token}
    (h : readFrameVal ts = .ok (d, r)) :
    ∃ w, ts = .number w :: r ∧ parseNumWord w = some d := by
  cases ts with
  | nil => simp [readFrameVal] at h
  | cons t ts' =>
    cases t with
    | number w =>
      rw [readFrameVal] at h
      cases hp : parseNumWord w with
      | none => rw [hp] at h; simp at h
      | some d' =>
        rw [hp] at h
        simp only [Except.ok.injEq, Prod.mk.injEq] at h
        exact ⟨w, by rw [h.2], by rw [hp, h.1]⟩
    | _ => simp [readFrameVal] at h

theorem consumed_cons {x : Token} {a b : List Token} (h : a = x :: b) :
    ∃ p, a = p ++ b := ⟨[x], by rw [h]; rfl⟩

theorem consumed_refl (a : List Token) : ∃ p, a = p ++ a := ⟨[], rfl⟩

theorem consumed_trans {a b c : List Token} (h1 : ∃ p, a = p ++ b)
    (h2 : ∃ q, b = q ++ c) : ∃ s, a = s ++ c := by
  obtain ⟨p, hp⟩ := h1
  obtain ⟨q, hq⟩ := h2
  exact ⟨p ++ q, by rw [hp, hq, List.append_assoc]⟩

theorem mem_of_consumed {a b : List Token} (h : ∃ p, a = p ++ b) :
    ∀ x ∈ b, x ∈ a := by
  obtain ⟨p, hp⟩ := h
  intro x hx
  rw [hp]
  exact List.mem_append.mpr (Or.inr hx)

theorem parseOffsetTriple_ok {ts : List Token} {p : Point} {r : List Token}
    (h : parseOffsetTriple ts = .ok (p, r)) :
    ∃ w1 w2 w3, ts = .kwOffset :: .number w1 :: .number w2 :: .number w3 :: r := by
  unfold parseOffsetTriple at h
  cases h0 : expectH .kwOffset "OFFSET".data ts with
  | error e => rw [h0] at h; simp at h
  | ok r0 =>
    rw [h0] at h
    dsimp only at h
    cases h1 : readNumH r0 with
    | error e => rw [h1] at h; simp at h
    | ok v1 =>
      obtain ⟨x, r1⟩ := v1
      rw [h1] at h
      dsimp only at h
      cases h2 : readNumH r1 with
      | error e => rw [h2] at h; simp at h
      | ok v2 =>
        obtain ⟨y, r2⟩ := v2
        rw [h2] at h
        dsimp only at h
        cases h3 : readNumH r2 with
        | error e => rw [h3] at h; simp at h
        | ok v3 =>
          obtain ⟨z, r3⟩ := v3
          rw [h3] at h
          simp only [Except.ok.injEq, Prod.mk.injEq] at h
          obtain ⟨w1, e1, _⟩ := readNumH_ok h1
          obtain ⟨w2, e2, _⟩ := readNumH_ok h2
          obtain ⟨w3, e3, _⟩ := readNumH_ok h3
          refine ⟨w1, w2, w3, ?_⟩
          rw [expectH_ok h0, e1, e2, e3, h.2]

theorem parseNChannels_ok : ∀ n ctr (ts : List Token) cs c' r,
    parseNChannels n ctr ts = .ok (cs, c', r) →
    cs.length = n ∧ c' = ctr + n ∧ ChansFrom ctr cs ∧ ∃ pre, ts = pre ++ r := by
  intro n
  induction n with
  | zero =>
    intro ctr ts cs c' r h
    simp only [parseNChannels, Except.ok.injEq, Prod.mk.injEq] at h
    obtain ⟨h1, h2, h3⟩ := h
    refine ⟨by rw [← h1]; rfl, by omega, ?_, ?_⟩
    · rw [← h1]; rfl
    · rw [h3]; exact consumed_refl _
  | succ n ih =>
    intro ctr ts cs c' r h
    simp only [parseNChannels] at h
    cases ts with
    | nil => simp at h
    | cons t ts' =>
      cases t
      case ident w =>
        dsimp only at h
        cases hty : channelTypeOfWord w with
        | none => rw [hty] at h; simp at h
        | some ty =>
          rw [hty] at h
          dsimp only at h
          cases hrec : parseNChannels n (ctr + 1) ts' with
          | error e => rw [hrec] at h; simp at h
          | ok v =>
            obtain ⟨cs', c'', r'⟩ := v
            rw [hrec] at h
            simp only [Except.ok.injEq, Prod.mk.injEq] at h
            obtain ⟨hcs, hc', hr⟩ := h
            obtain ⟨hlen, hctr, hcf, hpre⟩ := ih (ctr + 1) ts' cs' c'' r' hrec
            refine ⟨?_, ?_, ?_, ?_⟩
            · rw [← hcs]; simp [hlen]
            · omega
            · rw [← hcs]
              show (Channel.index ⟨ty, ctr⟩ :: cs'.map Channel.index) =
                idxSeq ctr (⟨ty, ctr⟩ :: cs').length
              rw [hcf]
              simp [idxSeq, hlen]
            · refine consumed_trans (consumed_cons rfl) ?_
              rw [← hr]
              exact hpre
      all_goals simp at h

theorem parseChannelsDecl_ok {ctr : Nat} {ts : List Token} {cs : List Channel}
    {c' : Nat} {r : List Token} (h : parseChannelsDecl ctr ts = .ok (cs, c', r)) :
    cs ≠ [] ∧ ChansFrom ctr cs ∧ c' = ctr + cs.length ∧ ∃ pre, ts = pre ++ r := by
  unfold parseChannelsDecl at h
  cases h0 : expectH .kwChannels "CHANNELS".data ts with
  | error e => rw [h0] at h; simp at h
  | ok r0 =>
    rw [h0] at h
    dsimp only at h
    cases h1 : readNatH r0 with
    | error e => rw [h1] at h; simp at h
    | ok v1 =>
      obtain ⟨n, r1⟩ := v1
      rw [h1] at h
      dsimp only at h
      by_cases hn : n = 0
      · rw [if_pos hn] at h; simp at h
      · rw [if_neg hn] at h
        obtain ⟨hlen, hctr, hcf, hpre⟩ := parseNChannels_ok n ctr r1 cs c' r h
        obtain ⟨w, e1, _⟩ := readNatH_ok h1
        refine ⟨?_, hcf, by omega, ?_⟩
        · intro h0'
          rw [h0'] at hlen
          exact hn (by simpa using hlen.symm)
        · refine consumed_trans (consumed_cons (expectH_ok h0)) ?_
          refine consumed_trans (consumed_cons e1) hpre

mutual
theorem parseJointNamed_wf : ∀ fuel depth ctr (ts : List Token) t c' r,
    parseJointNamed fuel depth ctr ts = .ok (t, c', r) →
    c' = ctr + t.nch ∧ WFJ ctr depth t ∧ (∃ pre, ts = pre ++ r) ∧
      (∀ nm ∈ t.namesJ, Token.ident nm ∈ ts)
  | 0, depth, ctr, ts, t, c', r => by
    intro h
    simp [parseJointNamed] at h
  | fuel + 1, depth, ctr, ts, t, c', r => by
    intro h
    simp only [parseJointNamed] at h
    cases h0 : readIdent ts with
    | error e => rw [h0] at h; simp at h
    | ok v0 =>
      obtain ⟨name, r0⟩ := v0
      rw [h0] at h
      dsimp only at h
      cases h1 : expectH .lbrace "open brace".data r0 with
      | error e => rw [h1] at h; simp at h
      | ok r1 =>
        rw [h1] at h
        dsimp only at h
        cases h2 : parseOffsetTriple r1 with
        | error e => rw [h2] at h; simp at h
        | ok v2 =>
          obtain ⟨off, r2⟩ := v2
          rw [h2] at h
          dsimp only at h
          cases h3 : parseChannelsDecl ctr r2 with
          | error e => rw [h3] at h; simp at h
          | ok v3 =>
            obtain ⟨chs, ctr1, r3⟩ := v3
            rw [h3] at h
            dsimp only at h
            cases h4 : parseBody fuel depth ctr1 r3 with
            | error e => rw [h4] at h; simp at h
            | ok v4 =>
              obtain ⟨kids, es, ctr2, r4⟩ := v4
              rw [h4] at h
              dsimp only at h
              simp only [Except.ok.injEq, Prod.mk.injEq] at h
              obtain ⟨ht, hc2, hr4⟩ := h
              subst ht
              subst hc2
              subst hr4
              obtain ⟨hne, hcf, hctr1, hpre3⟩ := parseChannelsDecl_ok h3
              obtain ⟨hcc, hwff, hpre4, hnames⟩ :=
                parseBody_wf fuel depth ctr1 r3 kids es _ _ h4
              obtain ⟨w1, w2, w3, hsh⟩ := parseOffsetTriple_ok h2
              have hts : ts = .ident name :: r0 := readIdent_ok h0
              have hr0 : r0 = .lbrace :: r1 := expectH_ok h1
              have hcons3 : ∃ p, ts = p ++ r3 := by
                refine consumed_trans (consumed_cons hts) ?_
                refine consumed_trans (consumed_cons hr0) ?_
                refine consumed_trans
                  ⟨[.kwOffset, .number w1, .number w2, .number w3], by rw [hsh]; rfl⟩ ?_
                exact hpre3
              refine ⟨?_, ?_, ?_, ?_⟩
              · show ctr2 = ctr + (Joint.node name off chs es depth kids).nch
                rw [hcc, hctr1]
                simp only [Joint.nch]
                omega
              · show WFJ ctr depth (.node name off chs es depth kids)
                refine ⟨rfl, hne, hcf, ?_⟩
                rw [← hctr1]
                exact hwff
              · exact consumed_trans hcons3 hpre4
              · intro nm hnm
                simp only [Joint.namesJ, List.mem_cons] at hnm
                rcases hnm with h5 | h5
                · subst h5; rw [hts]; simp
                · exact mem_of_consumed hcons3 _ (hnames nm h5)

theorem parseBody_wf : ∀ fuel depth ctr (ts : List Token) js es c' r,
    parseBody fuel depth ctr ts = .ok (js, es, c', r) →
    c' = ctr + js.nchF ∧ WFF ctr (depth + 1) js ∧ (∃ pre, ts = pre ++ r) ∧
      (∀ nm ∈ js.namesF, Token.ident nm ∈ ts)
  | 0, depth, ctr, ts, js, es, c', r => by
    intro h
    simp [parseBody] at h
  | fuel + 1, depth, ctr, ts, js, es, c', r => by
    intro h
    simp only [parseBody] at h
    cases ts with
    | nil => simp at h
    | cons t ts' =>
      cases t
      case rbrace =>
        dsimp only at h
        simp only [Except.ok.injEq, Prod.mk.injEq] at h
        obtain ⟨hjs, hes, hc, hr⟩ := h
        subst hjs
        subst hes
        subst hc
        subst hr
        refine ⟨by simp [JointForest.nchF], trivial, consumed_cons rfl, ?_⟩
        intro nm hnm
        simp [JointForest.namesF] at hnm
      case kwEnd =>
        dsimp only at h
        cases h0 : expectH .kwSite "Site".data ts' with
        | error e => rw [h0] at h; simp at h
        | ok r0 =>
          rw [h0] at h
          dsimp only at h
          cases h1 : expectH .lbrace "open brace".data r0 with
          | error e => rw [h1] at h; simp at h
          | ok r1 =>
            rw [h1] at h
            dsimp only at h
            cases h2 : parseOffsetTriple r1 with
            | error e => rw [h2] at h; simp at h
            | ok v2 =>
              obtain ⟨p, r2⟩ := v2
              rw [h2] at h
              dsimp only at h
              cases h3 : expectH .rbrace "close brace".data r2 with
              | error e => rw [h3] at h; simp at h
              | ok r3 =>
                rw [h3] at h
                dsimp only at h
                cases h4 : expectH .rbrace "close brace".data r3 with
                | error e => rw [h4] at h; simp at h
                | ok r4 =>
                  rw [h4] at h
                  dsimp only at h
                  simp only [Except.ok.injEq, Prod.mk.injEq] at h
                  obtain ⟨hjs, hes, hc, hr⟩ := h
                  subst hjs
                  subst hes
                  subst hc
                  subst hr
                  obtain ⟨w1, w2, w3, hsh⟩ := parseOffsetTriple_ok h2
                  refine ⟨by simp [JointForest.nchF], trivial, ?_, ?_⟩
                  · refine consumed_trans (consumed_cons rfl) ?_
                    refine consumed_trans (consumed_cons (expectH_ok h0)) ?_
                    refine consumed_trans (consumed_cons (expectH_ok h1)) ?_
                    refine consumed_trans
                      ⟨[.kwOffset, .number w1, .number w2, .number w3], by rw [hsh]; rfl⟩ ?_
                    refine consumed_trans (consumed_cons (expectH_ok h3)) ?_
                    exact consumed_cons (expectH_ok h4)
                  · intro nm hnm
                    simp [JointForest.namesF] at hnm
      case kwJoint =>
        dsimp only at h
        cases h0 : parseJointNamed fuel (depth + 1) ctr ts' with
        | error e => rw [h0] at h; simp at h
        | ok v0 =>
          obtain ⟨j, ctr1, r1⟩ := v0
          rw [h0] at h
          dsimp only at h
          cases h1 : parseBody fuel depth ctr1 r1 with
          | error e => rw [h1] at h; simp at h
          | ok v1 =>
            obtain ⟨js', es', ctr2, r2⟩ := v1
            rw [h1] at h
            dsimp only at h
            simp only [Except.ok.injEq, Prod.mk.injEq] at h
            obtain ⟨hjs, hes, hc, hr⟩ := h
            subst hjs
            subst hes
            subst hc
            subst hr
            obtain ⟨hc1, hwfj, hpre1, hnames1⟩ :=
              parseJointNamed_wf fuel (depth + 1) ctr ts' j _ _ h0
            obtain ⟨hc2, hwff, hpre2, hnames2⟩ :=
              parseBody_wf fuel depth ctr1 r1 js' es' _ _ h1
            have hconsts' : ∃ pre, (Token.kwJoint :: ts') = pre ++ ts' :=
              consumed_cons rfl
            refine ⟨?_, ?_, ?_, ?_⟩
            · rw [hc2, hc1]
              simp only [JointForest.nchF]
              omega
            · refine ⟨hwfj, ?_⟩
              rw [← hc1]
              exact hwff
            · refine consumed_trans hconsts' ?_
              exact consumed_trans hpre1 hpre2
            · intro nm hnm
              simp only [JointForest.namesF, List.mem_append] at hnm
              rcases hnm with h5 | h5
              · exact mem_of_consumed hconsts' _ (hnames1 nm h5)
              · refine mem_of_consumed hconsts' _ ?_
                exact mem_of_consumed hpre1 _ (hnames2 nm h5)
      all_goals simp at h
end

theorem parseRow_ok : ∀ cc (ts : List Token) row r,
    parseRow cc ts = .ok (row, r) →
    row.length = cc ∧ ∃ pre, ts = pre ++ r := by
  intro cc
  induction cc with
  | zero =>
    intro ts row r h
    simp only [parseRow, Except.ok.injEq, Prod.mk.injEq] at h
    obtain ⟨h1, h2⟩ := h
    exact ⟨by rw [← h1]; rfl, by rw [h2]; exact consumed_refl _⟩
  | succ cc ih =>
    intro ts row r h
    simp only [parseRow] at h
    cases h0 : readFrameVal ts with
    | error e => rw [h0] at h; simp at h
    | ok v0 =>
      obtain ⟨v, r0⟩ := v0
      rw [h0] at h
      dsimp only at h
      cases h1 : parseRow cc r0 with
      | error e => rw [h1] at h; simp at h
      | ok v1 =>
        obtain ⟨vs, r1⟩ := v1
        rw [h1] at h
        simp only [Except.ok.injEq, Prod.mk.injEq] at h
        obtain ⟨hrow, hr⟩ := h
        subst hrow
        subst hr
        obtain ⟨hlen, hpre⟩ := ih r0 vs r1 h1
        obtain ⟨w, hw, _⟩ := readFrameVal_ok h0
        exact ⟨by simp [hlen], consumed_trans (consumed_cons hw) hpre⟩

theorem parseFrames_ok : ∀ fc cc (ts : List Token) rows r,
    parseFrames fc cc ts = .ok (rows, r) →
    rows.length = fc ∧ (∀ row ∈ rows, row.length = cc) ∧ ∃ pre, ts = pre ++ r := by
  intro fc
  induction fc with
  | zero =>
    intro cc ts rows r h
    simp only [parseFrames, Except.ok.injEq, Prod.mk.injEq] at h
    obtain ⟨h1, h2⟩ := h
    refine ⟨by rw [← h1]; rfl, ?_, by rw [h2]; exact consumed_refl _⟩
    intro row hrow
    rw [← h1] at hrow
    simp at hrow
  | succ fc ih =>
    intro cc ts rows r h
    simp only [parseFrames] at h
    cases h0 : parseRow cc ts with
    | error e => rw [h0] at h; simp at h
    | ok v0 =>
      obtain ⟨row, r0⟩ := v0
      rw [h0] at h
      dsimp only at h
      cases h1 : parseFrames fc cc r0 with
      | error e => rw [h1] at h; simp at h
      | ok v1 =>
        obtain ⟨rows', r1⟩ := v1
        rw [h1] at h
        simp only [Except.ok.injEq, Prod.mk.injEq] at h
        obtain ⟨hrows, hr⟩ := h
        subst hrows
        subst hr
        obtain ⟨hlen0, hpre0⟩ := parseRow_ok cc ts row r0 h0
        obtain ⟨hlen, hall, hpre⟩ := ih cc r0 rows' r1 h1
        refine ⟨by simp [hlen], ?_, consumed_trans hpre0 hpre⟩
        intro rw0 hrw0
        rcases List.mem_cons.mp hrw0 with h5 | h5
        · rw [h5]; exact hlen0
        · exact hall rw0 h5

theorem parseMotion_ok {cc : Nat} {ts : List Token} {ft : Dec} {fc : Nat}
    {rows : List (List Dec)} {r : List Token}
    (h : parseMotion cc ts = .ok (ft, fc, rows, r)) :
    rows.length = fc ∧ (∀ row ∈ rows, row.length = cc) := by
  unfold parseMotion at h
  cases h0 : expectM .kwMotion "MOTION".data ts with
  | error e => rw [h0] at h; simp at h
  | ok r0 =>
    rw [h0] at h
    dsimp only at h
    cases h1 : expectM .kwFrames "Frames:".data r0 with
    | error e => rw [h1] at h; simp at h
    | ok r1 =>
      rw [h1] at h
      dsimp only at h
      cases h2 : readNatM r1 with
      | error e => rw [h2] at h; simp at h
      | ok v2 =>
        obtain ⟨fc', r2⟩ := v2
        rw [h2] at h
        dsimp only at h
        cases h3 : expectM .kwFrame "Frame".data r2 with
        | error e => rw [h3] at h; simp at h
        | ok r3 =>
          rw [h3] at h
          dsimp only at h
          cases h4 : expectM .kwTime "Time:".data r3 with
          | error e => rw [h4] at h; simp at h
          | ok r4 =>
            rw [h4] at h
            dsimp only at h
            cases h5 : readFrameVal r4 with
            | error e => rw [h5] at h; simp at h
            | ok v5 =>
              obtain ⟨ft', r5⟩ := v5
              rw [h5] at h
              dsimp only at h
              cases h6 : parseFrames fc' cc r5 with
              | error e => rw [h6] at h; simp at h
              | ok v6 =>
                obtain ⟨rows', r6⟩ := v6
                rw [h6] at h
                simp only [Except.ok.injEq, Prod.mk.injEq] at h
                obtain ⟨hft, hfc, hrows, hr⟩ := h
                subst hft
                subst hfc
                subst hrows
                subst hr
                obtain ⟨hlen, hall, _⟩ := parseFrames_ok _ cc r5 _ r6 h6
                exact ⟨hlen, hall⟩

/-- The invariants the parser establishes on every file it accepts. -/
def WFFile (F : AnimationFile) : Prop :=
  WFJ 0 0 F.root ∧ F.channelCount = F.root.nch ∧
    F.frames.length = F.frameCount ∧
    ∀ row ∈ F.frames, row.length = F.channelCount

theorem parseTokens_wf {ts : List Token} {F : AnimationFile}
    (h : parseTokens ts = .ok F) :
    WFFile F ∧ ∀ nm ∈ F.root.namesJ, Token.ident nm ∈ ts := by
  unfold parseTokens at h
  cases h0 : parseHierarchy (ts.length + 1) ts with
  | error e => rw [h0] at h; simp at h
  | ok v0 =>
    obtain ⟨root, cc, r⟩ := v0
    rw [h0] at h
    dsimp only at h
    cases h1 : parseMotion cc r with
    | error e => rw [h1] at h; simp at h
    | ok v1 =>
      obtain ⟨ft, fc, rows, r'⟩ := v1
      rw [h1] at h
      dsimp only at h
      cases r' with
      | cons t r'' => simp at h
      | nil =>
        dsimp only at h
        simp only [Except.ok.injEq] at h
        subst h
        unfold parseHierarchy at h0
        cases g0 : expectH .kwHierarchy "HIERARCHY".data ts with
        | error e => rw [g0] at h0; simp at h0
        | ok s0 =>
          rw [g0] at h0
          dsimp only at h0
          cases g1 : expectH .kwRoot "ROOT".data s0 with
          | error e => rw [g1] at h0; simp at h0
          | ok s1 =>
            rw [g1] at h0
            obtain ⟨hcc, hwfj, _, hnames⟩ :=
              parseJointNamed_wf (ts.length + 1) 0 0 s1 root cc r h0
            obtain ⟨hlen, hall⟩ := parseMotion_ok h1
            have hts : ts = .kwHierarchy :: s0 := expectH_ok g0
            have hs0 : s0 = .kwRoot :: s1 := expectH_ok g1
            refine ⟨⟨hwfj, by simpa using hcc, hlen, hall⟩, ?_⟩
            intro nm hnm
            rw [hts, hs0]
            simp only [List.mem_cons]
            exact Or.inr (Or.inr (hnames nm hnm))

mutual
theorem wfj_chans : ∀ c d t, WFJ c d t →
    (catChannels t.flatten).map Channel.index = idxSeq c t.nch ∧
      (t.flatten.map (fun j => j.channels.length)).sum = t.nch
  | c, d, .node n o cs es dep kids => by
    intro h
    obtain ⟨hdep, hne, hcf, hwff⟩ := h
    obtain ⟨ih1, ih2⟩ := wff_chans (c + cs.length) (d + 1) kids hwff
    constructor
    · show ((Joint.node n o cs es dep kids).channels ++
        catChannels kids.flattenF).map Channel.index =
        idxSeq c (Joint.node n o cs es dep kids).nch
      rw [List.map_append]
      show cs.map Channel.index ++ (catChannels kids.flattenF).map Channel.index =
        idxSeq c (cs.length + kids.nchF)
      rw [hcf, ih1, idxSeq_append]
    · show ((Joint.node n o cs es dep kids).channels.length +
        ((kids.flattenF.map (fun j => j.channels.length)).sum)) =
        (Joint.node n o cs es dep kids).nch
      show cs.length + (kids.flattenF.map (fun j => j.channels.length)).sum =
        cs.length + kids.nchF
      rw [ih2]
theorem wff_chans : ∀ c d js, WFF c d js →
    (catChannels js.flattenF).map Channel.index = idxSeq c js.nchF ∧
      (js.flattenF.map (fun j => j.channels.length)).sum = js.nchF
  | c, d, .nil => by
    intro _
    exact ⟨rfl, rfl⟩
  | c, d, .cons j js => by
    intro h
    obtain ⟨hwfj, hwff⟩ := h
    obtain ⟨ih1, ih2⟩ := wfj_chans c d j hwfj
    obtain ⟨ih3, ih4⟩ := wff_chans (c + j.nch) d js hwff
    constructor
    · show (catChannels (j.flatten ++ js.flattenF)).map Channel.index =
        idxSeq c (j.nch + js.nchF)
      rw [catChannels_append, List.map_append, ih1, ih3, idxSeq_append]
    · show ((j.flatten ++ js.flattenF).map (fun j => j.channels.length)).sum =
        j.nch + js.nchF
      rw [List.map_append, List.sum_append, ih2, ih4]
end

mutual
theorem wfj_depth : ∀ c d t, WFJ c d t → t.depth = d ∧ DepthOkJ t
  | c, d, .node n o cs es dep kids => by
    intro h
    obtain ⟨hdep, _, _, hwff⟩ := h
    refine ⟨hdep, ?_⟩
    show DepthOkF dep kids
    rw [hdep]
    exact wff_depth (c + cs.length) d kids hwff
theorem wff_depth : ∀ c d js, WFF c (d + 1) js → DepthOkF d js
  | c, d, .nil => by
    intro _
    trivial
  | c, d, .cons j js => by
    intro h
    obtain ⟨hwfj, hwff⟩ := h
    obtain ⟨hd, hok⟩ := wfj_depth c (d + 1) j hwfj
    exact ⟨hd, hok, wff_depth (c + j.nch) d js hwff⟩
end

theorem wfj_nch_pos {c d : Nat} {t : Joint} (h : WFJ c d t) : 1 ≤ t.nch := by
  obtain ⟨n, o, cs, es, dep, kids⟩ := t
  obtain ⟨_, hne, _, _⟩ := h
  show 1 ≤ cs.length + kids.nchF
  have : 0 < cs.length := List.length_pos.mpr hne
  omega

theorem flatten_head : ∀ t : Joint, ∃ rest, t.flatten = t :: rest := by
  intro t
  obtain ⟨n, o, cs, es, dep, kids⟩ := t
  exact ⟨kids.flattenF, rfl⟩

/-- Largest entry of a list of indices. -/
def maxIdx (l : List Nat) : Nat := l.foldr Nat.max 0

theorem maxIdx_idxSeq : ∀ n c, 0 < n → maxIdx (idxSeq c n) = c + n - 1 := by
  intro n
  induction n with
  | zero => intro c h; omega
  | succ n ih =>
    intro c _
    by_cases hn : n = 0
    · subst hn
      show maxIdx [c] = c + 1 - 1
      simp [maxIdx]
    · show maxIdx (c :: idxSeq (c + 1) n) = c + (n + 1) - 1
      have : maxIdx (c :: idxSeq (c + 1) n) =
          Nat.max c (maxIdx (idxSeq (c + 1) n)) := rfl
      rw [this, ih (c + 1) (Nat.pos_of_ne_zero hn)]
      have h2 : c + 1 + n - 1 = c + n := by omega
      have h3 : Nat.max c (c + n) = c + n := Nat.max_eq_right (Nat.le_add_right c n)
      rw [h2, h3]
      omega

theorem chansFrom_cons {ctr : Nat} {c : Channel} {cs : List Channel}
    (h : ChansFrom ctr (c :: cs)) : c.index = ctr ∧ ChansFrom (ctr + 1) cs := by
  unfold ChansFrom at h ⊢
  rw [List.map_cons] at h
  have hlen : (c :: cs).length = cs.length + 1 := rfl
  rw [hlen] at h
  rw [show idxSeq ctr (cs.length + 1) = ctr :: idxSeq (ctr + 1) cs.length from rfl] at h
  exact ⟨List.head_eq_of_cons_eq h, List.tail_eq_of_cons_eq h⟩

theorem parseNChannels_writeToks : ∀ (cs : List Channel) ctr (rest : List Token),
    ChansFrom ctr cs →
    parseNChannels cs.length ctr ((cs.map fun c => Token.ident c.type.word) ++ rest) =
      .ok (cs, ctr + cs.length, rest) := by
  intro cs
  induction cs with
  | nil =>
    intro ctr rest _
    simp [parseNChannels]
  | cons c cs' ih =>
    intro ctr rest h
    obtain ⟨hidx, hcf⟩ := chansFrom_cons h
    show parseNChannels (cs'.length + 1) ctr
      (Token.ident c.type.word :: ((cs'.map fun c => Token.ident c.type.word) ++ rest)) = _
    simp only [parseNChannels]
    rw [channelTypeOfWord_word c.type]
    dsimp only
    rw [ih (ctr + 1) rest hcf]
    dsimp only
    have hc : (⟨c.type, ctr⟩ : Channel) = c := by
      rw [← hidx]
    rw [hc]
    have h2 : ctr + 1 + cs'.length = ctr + (cs'.length + 1) := by omega
    rw [h2]
    rfl

theorem parseOffsetTriple_writeToks (p : Point) (rest : List Token) :
    parseOffsetTriple (.kwOffset :: .number (decToWord p.x) ::
      .number (decToWord p.y) :: .number (decToWord p.z) :: rest) = .ok (p, rest) := by
  unfold parseOffsetTriple
  rw [show expectH .kwOffset "OFFSET".data (.kwOffset :: .number (decToWord p.x) ::
    .number (decToWord p.y) :: .number (decToWord p.z) :: rest) = .ok (.number (decToWord p.x) ::
    .number (decToWord p.y) :: .number (decToWord p.z) :: rest) from by simp [expectH]]
  dsimp only
  rw [show readNumH (Token.number (decToWord p.x) :: .number (decToWord p.y) ::
    .number (decToWord p.z) :: rest) = .ok (p.x, .number (decToWord p.y) ::
    .number (decToWord p.z) :: rest) from by simp [readNumH, parseNumWord_decToWord]]
  dsimp only
  rw [show readNumH (Token.number (decToWord p.y) :: .number (decToWord p.z) :: rest) =
    .ok (p.y, .number (decToWord p.z) :: rest) from by
      simp [readNumH, parseNumWord_decToWord]]
  dsimp only
  rw [show readNumH (Token.number (decToWord p.z) :: rest) = .ok (p.z, rest) from by
    simp [readNumH, parseNumWord_decToWord]]

theorem endCloseToks_length_pos (es : Option Point) :
    1 ≤ (endCloseToks es).length := by
  cases es <;> simp [endCloseToks]

theorem writeToksJ_length (t : Joint) : (Joint.writeToksJ t).length =
    8 + t.channels.length + (JointForest.writeToksF t.children).length +
      (endCloseToks t.endSite).length := by
  obtain ⟨n, o, cs, es, dep, kids⟩ := t
  show (Joint.writeToksJ (.node n o cs es dep kids)).length = _
  simp only [Joint.writeToksJ, Joint.channels, Joint.children, Joint.endSite]
  simp [List.length_append, List.length_map]
  omega

theorem writeToksF_cons_length (j : Joint) (js : JointForest) :
    (JointForest.writeToksF (.cons j js)).length =
      1 + (Joint.writeToksJ j).length + (JointForest.writeToksF js).length := by
  simp only [JointForest.writeToksF]
  simp [List.length_append]
  omega

theorem readIdent_cons (w : List Char) (r : List Token) :
    readIdent (.ident w :: r) = .ok (w, r) := rfl

theorem expectH_cons (t : Token) (e : List Char) (r : List Token) :
    expectH t e (t :: r) = .ok r := by simp [expectH]

theorem expectM_cons (t : Token) (e : List Char) (r : List Token) :
    expectM t e (t :: r) = .ok r := by simp [expectM]

theorem readNumH_dec (d : Dec) (r : List Token) :
    readNumH (.number (decToWord d) :: r) = .ok (d, r) := by
  simp [readNumH, parseNumWord_decToWord]

theorem readNatH_nat (n : Nat) (r : List Token) :
    readNatH (.number (natToWord n) :: r) = .ok (n, r) := by
  simp [readNatH, parseNatWord_natToWord]

theorem readNatM_nat (n : Nat) (r : List Token) :
    readNatM (.number (natToWord n) :: r) = .ok (n, r) := by
  simp [readNatM, parseNatWord_natToWord]

theorem readFrameVal_dec (d : Dec) (r : List Token) :
    readFrameVal (.number (decToWord d) :: r) = .ok (d, r) := by
  simp [readFrameVal, parseNumWord_decToWord]

theorem parseChannelsDecl_writeToks (cs : List Channel) (ctr : Nat)
    (rest : List Token) (hne : cs ≠ []) (hcf : ChansFrom ctr cs) :
    parseChannelsDecl ctr (.kwChannels :: .number (natToWord cs.length) ::
      ((cs.map fun c => Token.ident c.type.word) ++ rest)) =
      .ok (cs, ctr + cs.length, rest) := by
  unfold parseChannelsDecl
  rw [expectH_cons]
  dsimp only
  rw [readNatH_nat]
  dsimp only
  rw [if_neg (fun h0 => hne (List.length_eq_zero.mp h0))]
  exact parseNChannels_writeToks cs ctr rest hcf

mutual
theorem parseJointNamed_writeToks : ∀ fuel depth ctr (t : Joint) (rest : List Token),
    WFJ ctr depth t → (Joint.writeToksJ t).length ≤ fuel →
    parseJointNamed fuel depth ctr (Joint.writeToksJ t ++ rest) =
      .ok (t, ctr + t.nch, rest)
  | 0, depth, ctr, t, rest => by
    intro _ hlen
    rw [writeToksJ_length] at hlen
    omega
  | fuel + 1, depth, ctr, t, rest => by
    intro hwf hlen
    obtain ⟨n, o, cs, es, dep, kids⟩ := t
    obtain ⟨hdep, hne, hcf, hwff⟩ := hwf
    have hlen' := writeToksJ_length (.node n o cs es dep kids)
    simp only [Joint.channels, Joint.children, Joint.endSite] at hlen'
    have hstream : Joint.writeToksJ (.node n o cs es dep kids) ++ rest =
        .ident n :: .lbrace :: .kwOffset :: .number (decToWord o.x) ::
        .number (decToWord o.y) :: .number (decToWord o.z) ::
        .kwChannels :: .number (natToWord cs.length) ::
        ((cs.map fun c => Token.ident c.type.word) ++
          (JointForest.writeToksF kids ++ (endCloseToks es ++ rest))) := by
      simp [Joint.writeToksJ, List.append_assoc]
    rw [hstream]
    simp only [parseJointNamed]
    rw [readIdent_cons]
    dsimp only
    rw [expectH_cons]
    dsimp only
    rw [parseOffsetTriple_writeToks o]
    dsimp only
    rw [parseChannelsDecl_writeToks cs ctr _ hne hcf]
    dsimp only
    rw [parseBody_writeToks fuel depth (ctr + cs.length) kids es rest hwff
      (by omega)]
    dsimp only
    rw [hdep]
    have h2 : ctr + cs.length + kids.nchF =
        ctr + (Joint.node n o cs es depth kids).nch := by
      show _ = ctr + (cs.length + kids.nchF)
      omega
    rw [h2]
theorem parseBody_writeToks : ∀ fuel depth ctr (js : JointForest)
    (es : Option Point) (rest : List Token),
    WFF ctr (depth + 1) js →
    (JointForest.writeToksF js).length + (endCloseToks es).length ≤ fuel →
    parseBody fuel depth ctr
      (JointForest.writeToksF js ++ (endCloseToks es ++ rest)) =
      .ok (js, es, ctr + js.nchF, rest)
  | 0, depth, ctr, js, es, rest => by
    intro _ hlen
    have := endCloseToks_length_pos es
    omega
  | fuel + 1, depth, ctr, js, es, rest => by
    intro hwf hlen
    cases js with
    | nil =>
      cases es with
      | none =>
        show parseBody (fuel + 1) depth ctr ([] ++ ([.rbrace] ++ rest)) = _
        simp only [List.nil_append, List.cons_append]
        simp only [parseBody]
        show Except.ok (JointForest.nil, none, ctr, rest) = _
        have h0 : ctr + JointForest.nchF .nil = ctr := rfl
        rw [h0]
      | some p =>
        show parseBody (fuel + 1) depth ctr
          (.kwEnd :: .kwSite :: .lbrace :: .kwOffset ::
            .number (decToWord p.x) :: .number (decToWord p.y) ::
            .number (decToWord p.z) :: .rbrace :: .rbrace :: rest) = _
        simp only [parseBody]
        rw [expectH_cons]
        dsimp only
        rw [expectH_cons]
        dsimp only
        rw [parseOffsetTriple_writeToks p]
        dsimp only
        rw [expectH_cons]
        dsimp only
        rw [expectH_cons]
        dsimp only
        have h0 : ctr + JointForest.nchF .nil = ctr := rfl
        rw [h0]
    | cons j js' =>
      obtain ⟨hwfj, hwff'⟩ := hwf
      have hclen := writeToksF_cons_length j js'
      have hstream : JointForest.writeToksF (.cons j js') ++ (endCloseToks es ++ rest) =
          .kwJoint :: (Joint.writeToksJ j ++
            (JointForest.writeToksF js' ++ (endCloseToks es ++ rest))) := by
        simp [JointForest.writeToksF, List.append_assoc]
      rw [hstream]
      simp only [parseBody]
      rw [parseJointNamed_writeToks fuel (depth + 1) ctr j _ hwfj (by omega)]
      dsimp only
      rw [parseBody_writeToks fuel depth (ctr + j.nch) js' es rest hwff' (by omega)]
      dsimp only
      have h2 : ctr + j.nch + js'.nchF = ctr + (JointForest.nchF (.cons j js')) := by
        show _ = ctr + (j.nch + js'.nchF)
        omega
      rw [h2]
end

theorem parseRow_writeToks : ∀ (row : List Dec) (rest : List Token),
    parseRow row.length ((row.map fun v => Token.number (decToWord v)) ++ rest) =
      .ok (row, rest) := by
  intro row
  induction row with
  | nil => intro rest; simp [parseRow]
  | cons v vs ih =>
    intro rest
    show parseRow (vs.length + 1)
      (.number (decToWord v) :: ((vs.map fun v => Token.number (decToWord v)) ++ rest)) = _
    simp only [parseRow]
    rw [readFrameVal_dec]
    dsimp only
    rw [ih rest]

theorem parseFrames_writeToks : ∀ (rows : List (List Dec)) cc (rest : List Token),
    (∀ row ∈ rows, row.length = cc) →
    parseFrames rows.length cc (rowsToks rows ++ rest) = .ok (rows, rest) := by
  intro rows
  induction rows with
  | nil => intro cc rest _; simp [parseFrames, rowsToks]
  | cons row rows' ih =>
    intro cc rest hall
    have hrl : row.length = cc := hall row (by simp)
    show parseFrames (rows'.length + 1) cc
      (((row.map fun v => Token.number (decToWord v)) ++ rowsToks rows') ++ rest) = _
    rw [List.append_assoc]
    simp only [parseFrames]
    have hrow : parseRow cc ((row.map fun v => Token.number (decToWord v)) ++
        (rowsToks rows' ++ rest)) = .ok (row, rowsToks rows' ++ rest) := by
      rw [← hrl]
      exact parseRow_writeToks row (rowsToks rows' ++ rest)
    rw [hrow]
    dsimp only
    rw [ih cc rest (fun r hr => hall r (by simp [hr]))]

theorem parseHierarchy_writeTokens (F : AnimationFile) (hwfj : WFJ 0 0 F.root)
    (fuel : Nat) (hfuel : (Joint.writeToksJ F.root).length ≤ fuel) :
    parseHierarchy fuel (writeTokens F) =
      .ok (F.root, F.root.nch, .kwMotion :: .kwFrames ::
        .number (natToWord F.frameCount) :: .kwFrame :: .kwTime ::
        .number (decToWord F.frameTime) :: rowsToks F.frames) := by
  show parseHierarchy fuel (.kwHierarchy :: .kwRoot :: (Joint.writeToksJ F.root ++
    (.kwMotion :: .kwFrames :: .number (natToWord F.frameCount) :: .kwFrame ::
      .kwTime :: .number (decToWord F.frameTime) :: rowsToks F.frames))) = _
  unfold parseHierarchy
  rw [expectH_cons]
  dsimp only
  rw [expectH_cons]
  dsimp only
  rw [parseJointNamed_writeToks fuel 0 0 F.root _ hwfj hfuel]
  rw [Nat.zero_add]

theorem parseMotion_writeTokens (F : AnimationFile)
    (hfc : F.frames.length = F.frameCount)
    (hall : ∀ row ∈ F.frames, row.length = F.root.nch) :
    parseMotion F.root.nch (.kwMotion :: .kwFrames ::
      .number (natToWord F.frameCount) :: .kwFrame :: .kwTime ::
      .number (decToWord F.frameTime) :: rowsToks F.frames) =
      .ok (F.frameTime, F.frameCount, F.frames, []) := by
  unfold parseMotion
  rw [expectM_cons]
  dsimp only
  rw [expectM_cons]
  dsimp only
  rw [readNatM_nat]
  dsimp only
  rw [expectM_cons]
  dsimp only
  rw [expectM_cons]
  dsimp only
  rw [readFrameVal_dec]
  dsimp only
  have hframes : parseFrames F.frameCount F.root.nch (rowsToks F.frames) =
      .ok (F.frames, []) := by
    have h1 := parseFrames_writeToks F.frames F.root.nch [] hall
    rw [List.append_nil] at h1
    rw [← hfc]
    exact h1
  rw [hframes]

theorem parseTokens_writeTokens (F : AnimationFile) (h : WFFile F) :
    parseTokens (writeTokens F) = .ok F := by
  obtain ⟨hwfj, hcc, hfc, hall⟩ := h
  unfold parseTokens
  have hfuel : (Joint.writeToksJ F.root).length ≤ (writeTokens F).length + 1 := by
    show _ ≤ (Token.kwHierarchy :: Token.kwRoot :: (Joint.writeToksJ F.root ++
      (.kwMotion :: .kwFrames :: .number (natToWord F.frameCount) :: .kwFrame ::
        .kwTime :: .number (decToWord F.frameTime) :: rowsToks F.frames))).length + 1
    simp [List.length_append]
    omega
  rw [parseHierarchy_writeTokens F hwfj _ hfuel]
  dsimp only
  rw [parseMotion_writeTokens F hfc (fun row hr => by rw [hall row hr, hcc])]
  dsimp only
  show Except.ok ⟨F.root, F.frameTime, F.frameCount, F.root.nch, F.frames⟩ = .ok F
  rw [← hcc]

theorem endCloseToks_tokOk (es : Option Point) :
    ∀ tok ∈ endCloseToks es, TokOk tok := by
  cases es with
  | none =>
    intro tok htok
    simp only [endCloseToks, List.mem_singleton] at htok
    rw [htok]
    exact tokOk_rbrace
  | some p =>
    intro tok htok
    simp only [endCloseToks, List.mem_cons, List.not_mem_nil, or_false] at htok
    rcases htok with rfl | rfl | rfl | rfl | rfl | rfl | rfl | rfl | rfl
    · exact tokOk_kwEnd
    · exact tokOk_kwSite
    · exact tokOk_lbrace
    · exact tokOk_kwOffset
    · exact tokOk_number_dec _
    · exact tokOk_number_dec _
    · exact tokOk_number_dec _
    · exact tokOk_rbrace
    · exact tokOk_rbrace

mutual
theorem writeToksJ_tokOk : ∀ t : Joint,
    (∀ nm ∈ t.namesJ, TokOk (.ident nm)) →
    ∀ tok ∈ Joint.writeToksJ t, TokOk tok
  | .node n o cs es dep kids => by
    intro hnames tok htok
    have hn : TokOk (.ident n) := hnames n (by simp [Joint.namesJ])
    have hkids : ∀ nm ∈ kids.namesF, TokOk (.ident nm) := fun nm hm =>
      hnames nm (by simp [Joint.namesJ, hm])
    simp only [Joint.writeToksJ, List.mem_cons, List.mem_append] at htok
    rcases htok with rfl | rfl | rfl | rfl | rfl | rfl | rfl | rfl | h | h | h
    · exact hn
    · exact tokOk_lbrace
    · exact tokOk_kwOffset
    · exact tokOk_number_dec _
    · exact tokOk_number_dec _
    · exact tokOk_number_dec _
    · exact tokOk_kwChannels
    · exact tokOk_number_nat _
    · obtain ⟨c, _, rfl⟩ := List.mem_map.mp h
      exact tokOk_channel_word _
    · exact writeToksF_tokOk kids hkids tok h
    · exact endCloseToks_tokOk es tok h
theorem writeToksF_tokOk : ∀ js : JointForest,
    (∀ nm ∈ js.namesF, TokOk (.ident nm)) →
    ∀ tok ∈ JointForest.writeToksF js, TokOk tok
  | .nil => by
    intro _ tok htok
    simp [JointForest.writeToksF] at htok
  | .cons j js' => by
    intro hnames tok htok
    simp only [JointForest.writeToksF, List.mem_cons, List.mem_append] at htok
    rcases htok with rfl | h | h
    · exact tokOk_kwJoint
    · exact writeToksJ_tokOk j
        (fun nm hnm => hnames nm (by simp [JointForest.namesF, hnm])) tok h
    · exact writeToksF_tokOk js'
        (fun nm hnm => hnames nm (by simp [JointForest.namesF, hnm])) tok h
end

theorem rowsToks_tokOk : ∀ rows tok, tok ∈ rowsToks rows → TokOk tok := by
  intro rows
  induction rows with
  | nil => intro tok h; simp [rowsToks] at h
  | cons row rows' ih =>
    intro tok h
    simp only [rowsToks, List.mem_append] at h
    rcases h with h | h
    · obtain ⟨v, _, rfl⟩ := List.mem_map.mp h
      exact tokOk_number_dec _
    · exact ih tok h

theorem writeTokens_tokOk (F : AnimationFile)
    (hnames : ∀ nm ∈ F.root.namesJ, TokOk (.ident nm)) :
    ∀ tok ∈ writeTokens F, TokOk tok := by
  intro tok htok
  simp only [writeTokens, List.mem_cons, List.mem_append] at htok
  rcases htok with rfl | rfl | h | rfl | rfl | rfl | rfl | rfl | rfl | h
  · exact tokOk_kwHierarchy
  · exact tokOk_kwRoot
  · exact writeToksJ_tokOk F.root hnames tok h
  · exact tokOk_kwMotion
  · exact tokOk_kwFrames
  · exact tokOk_number_nat _
  · exact tokOk_kwFrame
  · exact tokOk_kwTime
  · exact tokOk_number_dec _
  · exact rowsToks_tokOk F.frames tok h

theorem parse_names_tokOk {s : List Char} {F : AnimationFile}
    (h : parse s = .ok F) : ∀ nm ∈ F.root.namesJ, TokOk (.ident nm) := by
  obtain ⟨_, hnames⟩ := parseTokens_wf (show parseTokens (lex s) = _ from h)
  intro nm hnm
  have hmem : Token.ident nm ∈ lex s := hnames nm hnm
  rw [lex] at hmem
  obtain ⟨w, hw, hcl⟩ := List.mem_map.mp hmem
  obtain ⟨hvw, hclw⟩ := classify_ident_inv hcl
  obtain ⟨hne, hws⟩ := words_sane s w hw
  subst hvw
  exact ⟨hne, hws, hclw⟩

/-- Value equality of two points, componentwise exact float equality. -/
def pointEqB (p q : Point) : Bool :=
  p.x.eqb q.x && p.y.eqb q.y && p.z.eqb q.z

/-- Value equality of two optional end sites. -/
def optPointEqB : Option Point → Option Point → Bool
  | none, none => true
  | some p, some q => pointEqB p q
  | _, _ => false

/-- Equality of two channels: same type and same column index. -/
def channelEqB (a b : Channel) : Bool :=
  a.type == b.type && a.index == b.index

/-- Elementwise equality of two channel lists. -/
def channelsEqB : List Channel → List Channel → Bool
  | [], [] => true
  | a :: as, b :: bs => channelEqB a b && channelsEqB as bs
  | _, _ => false

mutual
/-- Modelled from the spec (section 4.4): structural equality of two
joint subtrees: names, offsets, end sites, channel lists, depths and
child order. -/
def Joint.eqB : Joint → Joint → Bool
  | .node n o cs es d kids, .node n' o' cs' es' d' kids' =>
    n == n' && pointEqB o o' && channelsEqB cs cs' && optPointEqB es es' &&
      d == d' && JointForest.eqBF kids kids'
/-- Structural equality of two forests, in order. -/
def JointForest.eqBF : JointForest → JointForest → Bool
  | .nil, .nil => true
  | .cons j js, .cons j' js' => Joint.eqB j j' && JointForest.eqBF js js'
  | _, _ => false
end

/-- Elementwise exact equality of two frame rows. -/
def rowEqB : List Dec → List Dec → Bool
  | [], [] => true
  | a :: as, b :: bs => a.eqb b && rowEqB as bs
  | _, _ => false

/-- Elementwise exact equality of two frame matrices. -/
def framesEqB : List (List Dec) → List (List Dec) → Bool
  | [], [] => true
  | a :: as, b :: bs => rowEqB a b && framesEqB as bs
  | _, _ => false

/-- Modelled from the spec (section 4.4): equality between two parsed
files, as exposed by bvh_file_equal: structural equality of the full
joint tree and exact (not tolerance based) equality of frame time, frame
count, channel count and every frame value. -/
def fileEq (a b : AnimationFile) : Bool :=
  Joint.eqB a.root b.root && a.frameTime.eqb b.frameTime &&
    a.frameCount == b.frameCount && a.channelCount == b.channelCount &&
    framesEqB a.frames b.frames

/-- Componentwise exact value equality of two points, as a proposition. -/
def PointVeq (p q : Point) : Prop :=
  p.x.veq q.x ∧ p.y.veq q.y ∧ p.z.veq q.z

/-- Value equality of optional end sites, as a proposition. -/
def OptPointVeq : Option Point → Option Point → Prop
  | none, none => True
  | some p, some q => PointVeq p q
  | _, _ => False

/-- Elementwise channel-list equality, as a proposition. -/
def ChannelsEqv : List Channel → List Channel → Prop
  | [], [] => True
  | a :: as, b :: bs => a.type = b.type ∧ a.index = b.index ∧ ChannelsEqv as bs
  | _, _ => False

mutual
/-- Structural joint-tree equality as a proposition: equal names, value
equal offsets and end sites, equal channel lists, equal depths, and
pairwise equivalent children in order. -/
def JointEquiv : Joint → Joint → Prop
  | .node n o cs es d kids, .node n' o' cs' es' d' kids' =>
    n = n' ∧ PointVeq o o' ∧ ChannelsEqv cs cs' ∧ OptPointVeq es es' ∧
      d = d' ∧ ForestEquiv kids kids'
/-- Structural forest equality as a proposition. -/
def ForestEquiv : JointForest → JointForest → Prop
  | .nil, .nil => True
  | .cons j js, .cons j' js' => JointEquiv j j' ∧ ForestEquiv js js'
  | _, _ => False
end

/-- Elementwise exact row equality, as a proposition. -/
def RowVeq : List Dec → List Dec → Prop
  | [], [] => True
  | a :: as, b :: bs => a.veq b ∧ RowVeq as bs
  | _, _ => False

/-- Elementwise exact frame-matrix equality, as a proposition. -/
def RowsVeq : List (List Dec) → List (List Dec) → Prop
  | [], [] => True
  | a :: as, b :: bs => RowVeq a b ∧ RowsVeq as bs
  | _, _ => False

theorem pointEqB_iff (p q : Point) : pointEqB p q = true ↔ PointVeq p q := by
  simp [pointEqB, PointVeq, Dec.eqb_iff_veq, and_assoc]

theorem optPointEqB_iff : ∀ a b, optPointEqB a b = true ↔ OptPointVeq a b
  | none, none => by simp [optPointEqB, OptPointVeq]
  | none, some q => by simp [optPointEqB, OptPointVeq]
  | some p, none => by simp [optPointEqB, OptPointVeq]
  | some p, some q => by simp [optPointEqB, OptPointVeq, pointEqB_iff]

theorem channelsEqB_iff : ∀ a b, channelsEqB a b = true ↔ ChannelsEqv a b
  | [], [] => by simp [channelsEqB, ChannelsEqv]
  | [], b :: bs => by simp [channelsEqB, ChannelsEqv]
  | a :: as, [] => by simp [channelsEqB, ChannelsEqv]
  | a :: as, b :: bs => by
    simp [channelsEqB, ChannelsEqv, channelEqB, channelsEqB_iff as bs, and_assoc]

mutual
theorem jointEqB_iff : ∀ t u, Joint.eqB t u = true ↔ JointEquiv t u
  | .node n o cs es d kids, .node n' o' cs' es' d' kids' => by
    simp [Joint.eqB, JointEquiv, pointEqB_iff, channelsEqB_iff,
      optPointEqB_iff, forestEqB_iff kids kids', and_assoc]
theorem forestEqB_iff : ∀ a b, JointForest.eqBF a b = true ↔ ForestEquiv a b
  | .nil, .nil => by simp [JointForest.eqBF, ForestEquiv]
  | .nil, .cons j js => by simp [JointForest.eqBF, ForestEquiv]
  | .cons j js, .nil => by simp [JointForest.eqBF, ForestEquiv]
  | .cons j js, .cons j' js' => by
    simp [JointForest.eqBF, ForestEquiv, jointEqB_iff j j', forestEqB_iff js js']
end

theorem rowEqB_iff : ∀ a b, rowEqB a b = true ↔ RowVeq a b
  | [], [] => by simp [rowEqB, RowVeq]
  | [], b :: bs => by simp [rowEqB, RowVeq]
  | a :: as, [] => by simp [rowEqB, RowVeq]
  | a :: as, b :: bs => by
    simp [rowEqB, RowVeq, Dec.eqb_iff_veq, rowEqB_iff as bs]

theorem framesEqB_iff : ∀ a b, framesEqB a b = true ↔ RowsVeq a b
  | [], [] => by simp [framesEqB, RowsVeq]
  | [], b :: bs => by simp [framesEqB, RowsVeq]
  | a :: as, [] => by simp [framesEqB, RowsVeq]
  | a :: as, b :: bs => by
    simp [framesEqB, RowsVeq, rowEqB_iff a b, framesEqB_iff as bs]

namespace cpp

/-- Enum constant values for the six channel kinds of the C API header
(target/include/bvh_anim/bvh_anim.h, which is generated outside this
snapshot); the wrapper only relies on the six enumerators being
distinct. -/
def X_POSITION : Nat := 0

def Y_POSITION : Nat := 1

def Z_POSITION : Nat := 2

def X_ROTATION : Nat := 3

def Y_ROTATION : Nat := 4

def Z_ROTATION : Nat := 5

/-- The C structure bvh_Channel: a channel type tag (an enum value,
which in C may hold any integer) and a column index. -/
structure bvh_Channel where
  channel_type : Nat
  channel_index : Nat
deriving DecidableEq, Repr

/-- The C++ scoped enumeration bvh::channel_type, bvh.hpp lines 36 to 43. -/
inductive channel_type where
  | x_position | y_position | z_position | x_rotation | y_rotation | z_rotation
deriving DecidableEq, Repr

/-- The C++ struct bvh::channel, bvh.hpp lines 45 to 53. -/
structure channel where
  type : channel_type
  index : Nat
deriving DecidableEq, Repr

/-- The converting constructor bvh::channel::channel(bvh_Channel),
bvh.cpp lines 6 to 37: the index is copied from channel_index, the
switch maps each of the six enumerators to the corresponding scoped
value, and any other value throws std::logic_error, so no channel is
constructed (modelled as an error result). -/
def channel.ofBvhChannel (ch : bvh_Channel) : Except String channel :=
  if ch.channel_type = X_POSITION then .ok ⟨.x_position, ch.channel_index⟩
  else if ch.channel_type = Y_POSITION then .ok ⟨.y_position, ch.channel_index⟩
  else if ch.channel_type = Z_POSITION then .ok ⟨.z_position, ch.channel_index⟩
  else if ch.channel_type = X_ROTATION then .ok ⟨.x_rotation, ch.channel_index⟩
  else if ch.channel_type = Y_ROTATION then .ok ⟨.y_rotation, ch.channel_index⟩
  else if ch.channel_type = Z_ROTATION then .ok ⟨.z_rotation, ch.channel_index⟩
  else .error "Attempting to construct a channel type with an invalid enum value"

/-- The C++ float type, embedded shallowly: NaN, or a finite value known
exactly.  IEEE comparison involving NaN is false; finite values compare
by value. -/
inductive F32 where
  | nan
  | val (v : Dec)
deriving DecidableEq, Repr

/-- IEEE equality on the embedded floats. -/
def feq : F32 → F32 → Bool
  | .val a, .val b => a.eqb b
  | _, _ => false

/-- The C++ struct bvh::point, bvh.hpp lines 24 to 34; the fields
default to 0.0f. -/
structure point where
  x : F32 := .val ⟨0, 0⟩
  y : F32 := .val ⟨0, 0⟩
  z : F32 := .val ⟨0, 0⟩
deriving DecidableEq, Repr

/-- The free operator==(point, point), bvh.hpp lines 113 to 115:
componentwise float equality. -/
def pointEq (p0 p1 : point) : Bool :=
  feq p0.x p1.x && feq p0.y p1.y && feq p0.z p1.z

/-- The free operator!=(point, point), bvh.hpp lines 117 to 119: the
exact negation of operator==. -/
def pointNe (p0 p1 : point) : Bool :=
  !pointEq p0 p1

end cpp

/-- The flattened channel list of a file, depth-first declaration order. -/
def AnimationFile.flatChannels (F : AnimationFile) : List Channel :=
  catChannels F.joints

/-- Internal consistency of a parsed model (spec sections 3, 4.4 and 8):
channel totals agree, channel indices are the contiguous range, the
frame matrix has the declared shape, and depths satisfy the root and
parent-child laws. -/
def Consistent (F : AnimationFile) : Prop :=
  (F.joints.map (fun j => j.channels.length)).sum = F.channelCount ∧
  F.flatChannels.map Channel.index = List.range F.channelCount ∧
  F.frames.length = F.frameCount ∧
  (∀ row ∈ F.frames, row.length = F.channelCount) ∧
  (∀ j0, F.joints.head? = some j0 → j0.depth = 0) ∧
  DepthOkJ F.root

theorem parse_ok_consistent {s : List Char} {F : AnimationFile}
    (h : parse s = .ok F) : Consistent F := by
  obtain ⟨⟨hwfj, hcc, hfc, hall⟩, _⟩ := parseTokens_wf (show parseTokens (lex s) = _ from h)
  obtain ⟨hmap, hsum⟩ := wfj_chans 0 0 F.root hwfj
  obtain ⟨hd0, hdok⟩ := wfj_depth 0 0 F.root hwfj
  refine ⟨?_, ?_, hfc, hall, ?_, hdok⟩
  · show (F.root.flatten.map (fun j => j.channels.length)).sum = F.channelCount
    rw [hsum, hcc]
  · show (catChannels F.root.flatten).map Channel.index = List.range F.channelCount
    rw [hmap, ← idxSeq_zero_eq_range, hcc]
  · intro j0 hj0
    obtain ⟨rest, hfl⟩ := flatten_head F.root
    have hhead : F.joints.head? = some F.root := by
      show F.root.flatten.head? = some F.root
      rw [hfl]
      rfl
    rw [hhead, Option.some.injEq] at hj0
    rw [← hj0]
    exact hd0

theorem parse_ok_cc_pos {s : List Char} {F : AnimationFile}
    (h : parse s = .ok F) : 1 ≤ F.channelCount := by
  obtain ⟨⟨hwfj, hcc, _, _⟩, _⟩ := parseTokens_wf (show parseTokens (lex s) = _ from h)
  rw [hcc]
  exact wfj_nch_pos hwfj

/-- The concrete scenario input of spec section 8, property 7. -/
def demoText : List Char :=
  ("HIERARCHY ROOT Hips \x7b OFFSET 0.0 0.0 0.0 CHANNELS 3" ++
   " Xposition Yposition Zposition \x7d MOTION Frames: 2" ++
   " Frame Time: 0.033333 0.0 0.0 0.0 1.0 2.0 3.0").data

/-- The model the demo input parses to. -/
def demoFile : AnimationFile :=
  ⟨.node "Hips".data ⟨⟨0, 1⟩, ⟨0, 1⟩, ⟨0, 1⟩⟩
    [⟨.xPosition, 0⟩, ⟨.yPosition, 1⟩, ⟨.zPosition, 2⟩] none 0 .nil,
   ⟨33333, 6⟩, 2, 3,
   [[⟨0, 1⟩, ⟨0, 1⟩, ⟨0, 1⟩], [⟨10, 1⟩, ⟨20, 1⟩, ⟨30, 1⟩]]⟩

theorem parse_demoText : parse demoText = .ok demoFile := by rfl

theorem readNumH_some {w : List Char} {d : Dec} (r : List Token)
    (h : parseNumWord w = some d) : readNumH (.number w :: r) = .ok (d, r) := by
  simp [readNumH, h]

theorem readNatH_some {w : List Char} {n : Nat} (r : List Token)
    (h : parseNatWord w = some n) : readNatH (.number w :: r) = .ok (n, r) := by
  simp [readNatH, h]

theorem readNatM_some {w : List Char} {n : Nat} (r : List Token)
    (h : parseNatWord w = some n) : readNatM (.number w :: r) = .ok (n, r) := by
  simp [readNatM, h]

theorem readFrameVal_some {w : List Char} {d : Dec} (r : List Token)
    (h : parseNumWord w = some d) : readFrameVal (.number w :: r) = .ok (d, r) := by
  simp [readFrameVal, h]

/-- A token that the channels rule accepts as a channel type. -/
def isChanTok : Token → Bool
  | .ident w => (channelTypeOfWord w).isSome
  | _ => false

/-- The remaining input does not begin with a channel-type token. -/
def NotChanHead : List Token → Prop
  | [] => True
  | t :: _ => isChanTok t = false

theorem parseNChannels_mismatch : ∀ (tys : List ChannelType) n ctr
    (rest : List Token), tys.length < n → NotChanHead rest →
    ∃ e f, parseNChannels n ctr ((tys.map fun ty => Token.ident ty.word) ++ rest) =
      .error (.hierarchyParseError e f) := by
  intro tys
  induction tys with
  | nil =>
    intro n ctr rest hlt hnc
    obtain ⟨n', rfl⟩ : ∃ n', n = n' + 1 := ⟨n - 1, by omega⟩
    show ∃ e f, parseNChannels (n' + 1) ctr rest = .error (.hierarchyParseError e f)
    cases rest with
    | nil => exact ⟨_, _, rfl⟩
    | cons t r' =>
      cases t
      case ident w =>
        have hw : channelTypeOfWord w = none := by
          have : (channelTypeOfWord w).isSome = false := hnc
          cases hcw : channelTypeOfWord w with
          | none => rfl
          | some ty => rw [hcw] at this; simp at this
        simp only [parseNChannels]
        rw [hw]
        exact ⟨_, _, rfl⟩
      all_goals exact ⟨_, _, rfl⟩
  | cons ty tys' ih =>
    intro n ctr rest hlt hnc
    obtain ⟨n', rfl⟩ : ∃ n', n = n' + 1 := ⟨n - 1, by omega⟩
    show ∃ e f, parseNChannels (n' + 1) ctr
      (.ident ty.word :: ((tys'.map fun ty => Token.ident ty.word) ++ rest)) =
        .error (.hierarchyParseError e f)
    simp only [parseNChannels]
    rw [channelTypeOfWord_word ty]
    dsimp only
    have hlt' : tys'.length < n' := by
      have : (ty :: tys').length = tys'.length + 1 := rfl
      omega
    obtain ⟨e, f, herr⟩ := ih n' (ctr + 1) rest hlt' hnc
    rw [herr]
    exact ⟨e, f, rfl⟩

theorem parseNChannels_exact_prefix : ∀ n (tys : List ChannelType) ctr
    (rest : List Token), n ≤ tys.length →
    ∃ cs, parseNChannels n ctr ((tys.map fun ty => Token.ident ty.word) ++ rest) =
      .ok (cs, ctr + n, ((tys.drop n).map fun ty => Token.ident ty.word) ++ rest) := by
  intro n
  induction n with
  | zero =>
    intro tys ctr rest _
    exact ⟨[], by simp [parseNChannels]⟩
  | succ n ih =>
    intro tys ctr rest hle
    cases tys with
    | nil => simp at hle
    | cons ty tys' =>
      have hle' : n ≤ tys'.length := by
        have : (ty :: tys').length = tys'.length + 1 := rfl
        omega
      obtain ⟨cs, hcs⟩ := ih tys' (ctr + 1) rest hle'
      refine ⟨⟨ty, ctr⟩ :: cs, ?_⟩
      show parseNChannels (n + 1) ctr
        (.ident ty.word :: ((tys'.map fun ty => Token.ident ty.word) ++ rest)) = _
      simp only [parseNChannels]
      rw [channelTypeOfWord_word ty]
      dsimp only
      rw [hcs]
      dsimp only
      have h2 : ctr + 1 + n = ctr + (n + 1) := by omega
      rw [h2]
      rfl

theorem parseBody_ident_error (fuel depth ctr : Nat) (w : List Char)
    (r : List Token) : ∃ e f,
    parseBody fuel depth ctr (.ident w :: r) = .error (.hierarchyParseError e f) := by
  cases fuel with
  | zero => exact ⟨_, _, rfl⟩
  | succ fuel => exact ⟨_, _, rfl⟩

theorem dec_eqb_refl (a : Dec) : a.eqb a = true := by simp [Dec.eqb]

theorem pointEqB_refl (p : Point) : pointEqB p p = true := by
  simp [pointEqB, dec_eqb_refl]

theorem optPointEqB_refl : ∀ es, optPointEqB es es = true
  | none => rfl
  | some p => pointEqB_refl p

theorem channelsEqB_refl : ∀ cs, channelsEqB cs cs = true
  | [] => rfl
  | c :: cs => by simp [channelsEqB, channelEqB, channelsEqB_refl cs]

mutual
theorem jointEqB_refl : ∀ t, Joint.eqB t t = true
  | .node n o cs es d kids => by
    simp [Joint.eqB, pointEqB_refl, channelsEqB_refl, optPointEqB_refl,
      forestEqB_refl kids]
theorem forestEqB_refl : ∀ js, JointForest.eqBF js js = true
  | .nil => rfl
  | .cons j js => by simp [JointForest.eqBF, jointEqB_refl j, forestEqB_refl js]
end

theorem rowEqB_refl : ∀ row, rowEqB row row = true
  | [] => rfl
  | v :: vs => by simp [rowEqB, dec_eqb_refl, rowEqB_refl vs]

theorem framesEqB_refl : ∀ rows, framesEqB rows rows = true
  | [] => rfl
  | row :: rows => by simp [framesEqB, rowEqB_refl row, framesEqB_refl rows]

theorem fileEq_refl (F : AnimationFile) : fileEq F F = true := by
  simp [fileEq, jointEqB_refl, dec_eqb_refl, framesEqB_refl]

/-- The demo input with the same parsed values written with different
floating-point formatting (extra trailing zeros, an explicit plus sign). -/
def demoTextB : List Char :=
  ("HIERARCHY ROOT Hips \x7b OFFSET 0.00 0.0 0.0 CHANNELS 3" ++
   " Xposition Yposition Zposition \x7d MOTION Frames: 2" ++
   " Frame Time: 0.0333330 0.0 0.0 0.0 1.00 2.0 +3.0").data

/-- The model the reformatted demo input parses to: representations
differ from demoFile, denoted values agree. -/
def demoFileB : AnimationFile :=
  ⟨.node "Hips".data ⟨⟨0, 2⟩, ⟨0, 1⟩, ⟨0, 1⟩⟩
    [⟨.xPosition, 0⟩, ⟨.yPosition, 1⟩, ⟨.zPosition, 2⟩] none 0 .nil,
   ⟨333330, 7⟩, 2, 3,
   [[⟨0, 1⟩, ⟨0, 1⟩, ⟨0, 1⟩], [⟨100, 2⟩, ⟨20, 1⟩, ⟨30, 1⟩]]⟩

theorem parse_demoTextB : parse demoTextB = .ok demoFileB := by rfl

/-- Claim C1: for every successfully parsed AnimationFile F, serialising
F with the writer and re-parsing the resulting BVH text yields a model
equal to F under the section 4.4 equality definition (structural joint
tree equality and exact equality of frame time, frame count, channel
count and every frame value).  In this embedding the round trip in fact
reproduces F on the nose. -/
theorem claim1_roundtrip (s : List Char) (F : AnimationFile)
    (h : parse s = .ok F) :
    ∃ G, parse (write F) = .ok G ∧ fileEq G F = true := by
  have hwf := (parseTokens_wf (show parseTokens (lex s) = _ from h)).1
  have hnames := parse_names_tokOk h
  have htoks := writeTokens_tokOk F hnames
  refine ⟨F, ?_, fileEq_refl F⟩
  show parseTokens (lex (render (writeTokens F))) = .ok F
  rw [lex_render (writeTokens F) htoks]
  exact parseTokens_writeTokens F hwf

theorem claim1_roundtrip_witness :
    ∃ G, parse (write demoFile) = .ok G ∧ fileEq G demoFile = true :=
  claim1_roundtrip demoText demoFile parse_demoText

/-- Claim C2: every parsing entry point, for every input, either returns
a complete internally consistent AnimationFile or reports an error and
hands back no model at all; there is no input for which a partial or
corrupt model is returned. -/
theorem claim2_total_consistent (s : List Char) :
    (∃ e, parse s = .error e) ∨ (∃ F, parse s = .ok F ∧ Consistent F) := by
  cases h : parse s with
  | error e => exact Or.inl ⟨e, rfl⟩
  | ok F => exact Or.inr ⟨F, rfl, parse_ok_consistent h⟩

/-- Claim C3: for every successfully parsed file, channel_count equals
the sum over all joints of the length of the channel list, and equals
one plus the maximum channel index; the indices, in depth-first
declaration order, are exactly the contiguous strictly increasing range
0 to channel_count - 1. -/
theorem claim3_channel_count (s : List Char) (F : AnimationFile)
    (h : parse s = .ok F) :
    (F.joints.map (fun j => j.channels.length)).sum = F.channelCount ∧
    F.channelCount = 1 + maxIdx (F.flatChannels.map Channel.index) ∧
    F.flatChannels.map Channel.index = List.range F.channelCount := by
  obtain ⟨hsum, hidx, _, _, _, _⟩ := parse_ok_consistent h
  have hpos := parse_ok_cc_pos h
  refine ⟨hsum, ?_, hidx⟩
  rw [hidx, ← idxSeq_zero_eq_range, maxIdx_idxSeq _ 0 hpos]
  omega

theorem claim3_channel_count_witness :
    (demoFile.joints.map (fun j => j.channels.length)).sum = demoFile.channelCount ∧
    demoFile.channelCount = 1 + maxIdx (demoFile.flatChannels.map Channel.index) ∧
    demoFile.flatChannels.map Channel.index = List.range demoFile.channelCount :=
  claim3_channel_count demoText demoFile parse_demoText

/-- Claim C4: for every successfully parsed file, the frame matrix has
exactly frame_count rows and every row has exactly channel_count values;
columns correspond to the global channel indices assigned in the
hierarchy walk, which are exactly 0 to channel_count - 1 in order. -/
theorem claim4_frame_shape (s : List Char) (F : AnimationFile)
    (h : parse s = .ok F) :
    F.frames.length = F.frameCount ∧
    (∀ row ∈ F.frames, row.length = F.channelCount) ∧
    F.flatChannels.map Channel.index = List.range F.channelCount := by
  obtain ⟨_, hidx, hfc, hall, _, _⟩ := parse_ok_consistent h
  exact ⟨hfc, hall, hidx⟩

theorem claim4_frame_shape_witness :
    demoFile.frames.length = demoFile.frameCount ∧
    (∀ row ∈ demoFile.frames, row.length = demoFile.channelCount) ∧
    demoFile.flatChannels.map Channel.index = List.range demoFile.channelCount :=
  claim4_frame_shape demoText demoFile parse_demoText

/-- Claim C5: in every successfully parsed file the root joint, which is
the head of the pre-order joint sequence, has depth 0, and every child
joint in the tree has depth one greater than its parent. -/
theorem claim5_depth (s : List Char) (F : AnimationFile)
    (h : parse s = .ok F) :
    (∀ j0, F.joints.head? = some j0 → j0.depth = 0) ∧ DepthOkJ F.root := by
  obtain ⟨_, _, _, _, hhead, hdok⟩ := parse_ok_consistent h
  exact ⟨hhead, hdok⟩

theorem claim5_depth_witness :
    demoFile.root.depth = 0 ∧ DepthOkJ demoFile.root :=
  ⟨(claim5_depth demoText demoFile parse_demoText).1 demoFile.root rfl,
   (claim5_depth demoText demoFile parse_demoText).2⟩

/-- Claim C6: equality between two AnimationFile values holds exactly
when the full joint trees are structurally equal (names, offsets, end
sites, channel lists, depths, child order) and frame time, frame count,
channel count and every frame value are exactly equal; moreover two
files differing only in floating-point text formatting but identical in
parsed values compare equal (witnessed by two such inputs whose parsed
representations even differ). -/
theorem claim6_file_equality :
    (∀ F G : AnimationFile, fileEq F G = true ↔
      (JointEquiv F.root G.root ∧ F.frameTime.veq G.frameTime ∧
        F.frameCount = G.frameCount ∧ F.channelCount = G.channelCount ∧
        RowsVeq F.frames G.frames)) ∧
    (demoTextB ≠ demoText ∧ ∃ F G, parse demoText = .ok F ∧
      parse demoTextB = .ok G ∧ F ≠ G ∧ fileEq F G = true) := by
  constructor
  · intro F G
    simp [fileEq, Bool.and_eq_true, jointEqB_iff, Dec.eqb_iff_veq,
      framesEqB_iff, and_assoc]
  · refine ⟨by decide, demoFile, demoFileB, parse_demoText, parse_demoTextB, ?_, by rfl⟩
    intro he
    have := congrArg AnimationFile.frameTime he
    simp only [demoFile, demoFileB, Dec.mk.injEq] at this
    omega

/-- Claim C7: for every input containing a CHANNELS line whose declared
count disagrees with the number of channel-type tokens that follow it,
parsing fails with a HierarchyParseError and produces no model.  The
statement quantifies over the joint name, the three offset literals, the
declared count, the list of channel-type tokens that follow, and the
arbitrary remaining input after them. -/
theorem claim7_channels_mismatch (name o1 o2 o3 cnt : List Char)
    (d1 d2 d3 : Dec) (n : Nat) (tys : List ChannelType) (rest : List Token)
    (h1 : parseNumWord o1 = some d1) (h2 : parseNumWord o2 = some d2)
    (h3 : parseNumWord o3 = some d3) (hcnt : parseNatWord cnt = some n)
    (hne : tys.length ≠ n) (hrest : NotChanHead rest) :
    ∃ e f, parseTokens (.kwHierarchy :: .kwRoot :: .ident name :: .lbrace ::
      .kwOffset :: .number o1 :: .number o2 :: .number o3 ::
      .kwChannels :: .number cnt ::
      ((tys.map fun ty => Token.ident ty.word) ++ rest)) =
      .error (.hierarchyParseError e f) := by
  unfold parseTokens
  unfold parseHierarchy
  rw [expectH_cons]
  dsimp only
  rw [expectH_cons]
  dsimp only
  simp only [parseJointNamed]
  rw [readIdent_cons]
  dsimp only
  rw [expectH_cons]
  dsimp only
  rw [show parseOffsetTriple (.kwOffset :: .number o1 :: .number o2 :: .number o3 ::
      .kwChannels :: .number cnt :: ((tys.map fun ty => Token.ident ty.word) ++ rest)) =
      .ok (⟨d1, d2, d3⟩, .kwChannels :: .number cnt ::
        ((tys.map fun ty => Token.ident ty.word) ++ rest)) from by
    unfold parseOffsetTriple
    rw [expectH_cons]
    dsimp only
    rw [readNumH_some _ h1]
    dsimp only
    rw [readNumH_some _ h2]
    dsimp only
    rw [readNumH_some _ h3]]
  dsimp only
  unfold parseChannelsDecl
  rw [expectH_cons]
  dsimp only
  rw [readNatH_some _ hcnt]
  dsimp only
  by_cases hn0 : n = 0
  · rw [if_pos hn0]
    dsimp only
    exact ⟨_, _, rfl⟩
  · rw [if_neg hn0]
    rcases Nat.lt_or_ge tys.length n with hlt | hge
    · obtain ⟨e, f, herr⟩ := parseNChannels_mismatch tys n 0 rest hlt hrest
      rw [herr]
      dsimp only
      exact ⟨e, f, rfl⟩
    · obtain ⟨cs, hok⟩ := parseNChannels_exact_prefix n tys 0 rest hge
      rw [hok]
      dsimp only
      obtain ⟨ty0, tys0, hdrop⟩ : ∃ ty0 tys0, tys.drop n = ty0 :: tys0 := by
        cases hd : tys.drop n with
        | nil =>
          have hlen := List.length_drop n tys
          rw [hd] at hlen
          simp at hlen
          omega
        | cons a b => exact ⟨a, b, rfl⟩
      rw [hdrop]
      simp only [List.map_cons, List.cons_append]
      obtain ⟨e, f, herr⟩ := parseBody_ident_error _ 0 (0 + n) ty0.word
        ((tys0.map fun ty => Token.ident ty.word) ++ rest)
      rw [herr]
      dsimp only
      exact ⟨e, f, rfl⟩

theorem claim7_channels_mismatch_witness : ∃ e f,
    parseTokens (.kwHierarchy :: .kwRoot :: .ident "Hips".data :: .lbrace ::
      .kwOffset :: .number "0.0".data :: .number "0.0".data :: .number "0.0".data ::
      .kwChannels :: .number ['3'] ::
      (([ChannelType.xPosition, ChannelType.yPosition].map
        fun ty => Token.ident ty.word) ++ [Token.rbrace])) =
      .error (.hierarchyParseError e f) :=
  claim7_channels_mismatch "Hips".data "0.0".data "0.0".data "0.0".data ['3']
    ⟨0, 1⟩ ⟨0, 1⟩ ⟨0, 1⟩ 3 [.xPosition, .yPosition] [.rbrace]
    rfl rfl rfl rfl (by decide) (by show isChanTok Token.rbrace = false; rfl)

/-- Claim C8: an input whose MOTION section declares Frames: 0, with
both headers present and no data rows following, parses successfully and
yields an AnimationFile whose frame matrix has zero rows, while the
channel count is still the one determined by the hierarchy.  The
statement quantifies over any token stream whose hierarchy section
parses and leaves exactly the zero-frame motion trailer. -/
theorem claim8_zero_frames (hts : List Token) (root : Joint) (cc : Nat)
    (ftw : List Char) (ft : Dec)
    (hhier : parseHierarchy (hts.length + 6 + 1)
      (hts ++ [.kwMotion, .kwFrames, .number ['0'], .kwFrame, .kwTime, .number ftw]) =
      .ok (root, cc, [.kwMotion, .kwFrames, .number ['0'], .kwFrame, .kwTime, .number ftw]))
    (hft : parseNumWord ftw = some ft) :
    parseTokens (hts ++ [.kwMotion, .kwFrames, .number ['0'], .kwFrame,
      .kwTime, .number ftw]) = .ok ⟨root, ft, 0, cc, []⟩ := by
  unfold parseTokens
  have hlen : (hts ++ [Token.kwMotion, Token.kwFrames, Token.number ['0'],
      Token.kwFrame, Token.kwTime, Token.number ftw]).length + 1 =
      hts.length + 6 + 1 := by
    simp [List.length_append]
  rw [hlen, hhier]
  dsimp only
  unfold parseMotion
  rw [show ([Token.kwMotion, Token.kwFrames, Token.number ['0'], Token.kwFrame,
    Token.kwTime, Token.number ftw] : List Token) = Token.kwMotion ::
    [Token.kwFrames, Token.number ['0'], Token.kwFrame, Token.kwTime,
      Token.number ftw] from rfl]
  rw [expectM_cons]
  dsimp only
  rw [show ([Token.kwFrames, Token.number ['0'], Token.kwFrame, Token.kwTime,
    Token.number ftw] : List Token) = Token.kwFrames :: [Token.number ['0'],
      Token.kwFrame, Token.kwTime, Token.number ftw] from rfl]
  rw [expectM_cons]
  dsimp only
  rw [readNatM_some _ (show parseNatWord ['0'] = some 0 from rfl)]
  dsimp only
  rw [expectM_cons]
  dsimp only
  rw [expectM_cons]
  dsimp only
  rw [readFrameVal_some _ hft]
  dsimp only
  rfl

/-- The hierarchy-section tokens of the demo input. -/
def demoHierToks : List Token :=
  [.kwHierarchy, .kwRoot, .ident "Hips".data, .lbrace,
   .kwOffset, .number "0.0".data, .number "0.0".data, .number "0.0".data,
   .kwChannels, .number ['3'], .ident "Xposition".data,
   .ident "Yposition".data, .ident "Zposition".data, .rbrace]

theorem claim8_zero_frames_witness :
    parseTokens (demoHierToks ++ [.kwMotion, .kwFrames, .number ['0'],
      .kwFrame, .kwTime, .number "0.033333".data]) =
      .ok ⟨demoFile.root, ⟨33333, 6⟩, 0, 3, []⟩ :=
  claim8_zero_frames demoHierToks demoFile.root 3 "0.033333".data ⟨33333, 6⟩
    (by rfl) (by rfl)

/-- Claim C9: the converting constructor channel(bvh_Channel) maps each
of the six enumerators to the corresponding scoped channel type and
copies channel_index unchanged into index; for any other channel_type
value it throws std::logic_error and constructs no channel. -/
theorem claim9_channel_ctor (ch : cpp.bvh_Channel) :
    (ch.channel_type = cpp.X_POSITION →
      cpp.channel.ofBvhChannel ch = .ok ⟨.x_position, ch.channel_index⟩) ∧
    (ch.channel_type = cpp.Y_POSITION →
      cpp.channel.ofBvhChannel ch = .ok ⟨.y_position, ch.channel_index⟩) ∧
    (ch.channel_type = cpp.Z_POSITION →
      cpp.channel.ofBvhChannel ch = .ok ⟨.z_position, ch.channel_index⟩) ∧
    (ch.channel_type = cpp.X_ROTATION →
      cpp.channel.ofBvhChannel ch = .ok ⟨.x_rotation, ch.channel_index⟩) ∧
    (ch.channel_type = cpp.Y_ROTATION →
      cpp.channel.ofBvhChannel ch = .ok ⟨.y_rotation, ch.channel_index⟩) ∧
    (ch.channel_type = cpp.Z_ROTATION →
      cpp.channel.ofBvhChannel ch = .ok ⟨.z_rotation, ch.channel_index⟩) ∧
    (ch.channel_type ∉ [cpp.X_POSITION, cpp.Y_POSITION, cpp.Z_POSITION,
        cpp.X_ROTATION, cpp.Y_ROTATION, cpp.Z_ROTATION] →
      cpp.channel.ofBvhChannel ch =
        .error "Attempting to construct a channel type with an invalid enum value") := by
  refine ⟨?_, ?_, ?_, ?_, ?_, ?_, ?_⟩
  · intro h
    simp [cpp.channel.ofBvhChannel, h, cpp.X_POSITION, cpp.Y_POSITION,
      cpp.Z_POSITION, cpp.X_ROTATION, cpp.Y_ROTATION, cpp.Z_ROTATION]
  · intro h
    simp [cpp.channel.ofBvhChannel, h, cpp.X_POSITION, cpp.Y_POSITION,
      cpp.Z_POSITION, cpp.X_ROTATION, cpp.Y_ROTATION, cpp.Z_ROTATION]
  · intro h
    simp [cpp.channel.ofBvhChannel, h, cpp.X_POSITION, cpp.Y_POSITION,
      cpp.Z_POSITION, cpp.X_ROTATION, cpp.Y_ROTATION, cpp.Z_ROTATION]
  · intro h
    simp [cpp.channel.ofBvhChannel, h, cpp.X_POSITION, cpp.Y_POSITION,
      cpp.Z_POSITION, cpp.X_ROTATION, cpp.Y_ROTATION, cpp.Z_ROTATION]
  · intro h
    simp [cpp.channel.ofBvhChannel, h, cpp.X_POSITION, cpp.Y_POSITION,
      cpp.Z_POSITION, cpp.X_ROTATION, cpp.Y_ROTATION, cpp.Z_ROTATION]
  · intro h
    simp [cpp.channel.ofBvhChannel, h, cpp.X_POSITION, cpp.Y_POSITION,
      cpp.Z_POSITION, cpp.X_ROTATION, cpp.Y_ROTATION, cpp.Z_ROTATION]
  · intro h
    simp only [List.mem_cons, List.not_mem_nil, or_false, not_or] at h
    obtain ⟨g1, g2, g3, g4, g5, g6⟩ := h
    simp [cpp.channel.ofBvhChannel, g1, g2, g3, g4, g5, g6]

theorem claim9_channel_ctor_witness :
    cpp.channel.ofBvhChannel ⟨0, 7⟩ = .ok ⟨.x_position, 7⟩ ∧
    cpp.channel.ofBvhChannel ⟨9, 3⟩ =
      .error "Attempting to construct a channel type with an invalid enum value" :=
  ⟨(claim9_channel_ctor ⟨0, 7⟩).1 rfl,
   (claim9_channel_ctor ⟨9, 3⟩).2.2.2.2.2.2 (by decide)⟩

/-- Claim C10: equality on point is componentwise float equality of x, y
and z, operator!= is the exact negation of operator==, for every pair of
points exactly one of the two holds, and a point with a NaN component is
not equal to itself, so == is not reflexive over all points. -/
theorem claim10_point_equality :
    (∀ p0 p1 : cpp.point, cpp.pointEq p0 p1 =
      (cpp.feq p0.x p1.x && cpp.feq p0.y p1.y && cpp.feq p0.z p1.z)) ∧
    (∀ p0 p1 : cpp.point, cpp.pointNe p0 p1 = !cpp.pointEq p0 p1) ∧
    (∀ p0 p1 : cpp.point, (cpp.pointEq p0 p1 = true ∨ cpp.pointNe p0 p1 = true) ∧
      ¬(cpp.pointEq p0 p1 = true ∧ cpp.pointNe p0 p1 = true)) ∧
    (∀ p : cpp.point, (p.x = .nan ∨ p.y = .nan ∨ p.z = .nan) →
      cpp.pointEq p p = false) := by
  refine ⟨fun p0 p1 => rfl, fun p0 p1 => rfl, ?_, ?_⟩
  · intro p0 p1
    constructor
    · cases h : cpp.pointEq p0 p1 with
      | false => right; simp [cpp.pointNe, h]
      | true => left; rfl
    · rintro ⟨he, hn⟩
      rw [cpp.pointNe, he] at hn
      simp at hn
  · intro p hn
    rcases hn with h | h | h
    · simp [cpp.pointEq, h, cpp.feq]
    · simp [cpp.pointEq, h, cpp.feq]
    · simp [cpp.pointEq, h, cpp.feq]

theorem claim10_point_equality_witness :
    cpp.pointEq ⟨.nan, .val ⟨0, 0⟩, .val ⟨0, 0⟩⟩
      ⟨.nan, .val ⟨0, 0⟩, .val ⟨0, 0⟩⟩ = false :=
  claim10_point_equality.2.2.2 ⟨.nan, .val ⟨0, 0⟩, .val ⟨0, 0⟩⟩ (Or.inl rfl)
